import Mathlib

/-!
Verification of the core of DiffCli.py: the indentation-stack parser
`build_tree` and the recursive tree differ `diff_trees`.

Modelling conventions:
* a raw text line is a `List Char`; Python's `str.rstrip`, `str.lstrip`,
  `str.strip` and `len(line) - len(line.lstrip())` are translated to the
  character-list functions `rstrip`, `lstrip`, `strip`, `indentOf`, with
  whitespace meaning `Char.isWhitespace`;
* a Python nested dict (`defaultdict(dict)` tree) is `Tree`, an association
  list from command text to subtree, in insertion order with the
  overwrite-in-place semantics of dict assignment (`insertOrReplace`);
* `build_tree`'s mutable stack of `(indent, dict-reference)` pairs becomes a
  pure stack of `Frame`s; since a pure model has no aliasing, a finished
  frame is folded into its parent when it is popped (`foldFrame`), which
  yields the same final tree.  Reading the top of an empty stack, which in
  Python would raise `IndexError` at `stack[-1]`, is modelled by `Option`:
  `buildStep` returns `none` exactly in that (provably unreachable) case.
  The source duplicates its pop loop (lines 29-30 and 33-34); the second
  loop is a no-op and the model performs the pop once;
* `diff_trees` iterates over `set(old_tree) | set(new_tree)`.  CPython's set
  iteration order is an implementation artefact (the spec leaves it
  unspecified but it is a function of the key set alone within a run), so
  the model enumerates the union of the key sets in a canonical order: the
  deduplicated keys sorted by the total order `keyLe` (`unionKeys`);
* `diff_trees` is defined via the fuel-indexed `diffFuel` so that it is
  structurally recursive (hence computable by `decide`); the lemma
  `diff_trees_unfold` recovers the recursion equation of the source.
-/

namespace DiffCli

/-! ### Python string helpers on character lists -/

/-- model of `str.lstrip()`: drop leading whitespace. -/
def lstrip (l : List Char) : List Char := l.dropWhile Char.isWhitespace

/-- model of `str.rstrip()`: drop trailing whitespace. -/
def rstrip (l : List Char) : List Char := (l.reverse.dropWhile Char.isWhitespace).reverse

/-- model of `str.strip()`: drop whitespace on both sides. -/
def strip (l : List Char) : List Char := lstrip (rstrip l)

/-- model of `len(line) - len(line.lstrip())`: the number of leading
whitespace characters of the raw line. -/
def indentOf (l : List Char) : Nat := l.length - (lstrip l).length

/-- the skip test of `build_tree`: with `raw_line = line.rstrip()`, skip when
`not raw_line.strip()` (blank after trimming) `or raw_line.lstrip() == '!'`. -/
def skipLine (line : List Char) : Bool :=
  (strip (rstrip line)).isEmpty || lstrip (rstrip line) == ['!']

/-! ### Configuration trees (nested dictionaries) -/

/-- a configuration tree: the nested-dictionary value of `build_tree`, an
association list from command text to subtree (keys unique per level for
trees actually produced by `build_tree`, see `wfTree`). -/
inductive Tree where
  | node (children : List (String × Tree))

/-- the children association list of a tree. -/
def Tree.children : Tree → List (String × Tree)
  | .node cs => cs

/-- dictionary lookup `t[k]` (also the membership test `k in t`): the first
entry with key `k`, if any. -/
def lookupT (k : String) : Tree → Option Tree
  | .node cs => (cs.find? (fun p => p.1 == k)).map (fun p => p.2)

/-- the key list of a tree level, in insertion order (Python `list(d)`). -/
def keysOf : Tree → List String
  | .node cs => cs.map Prod.fst

/-- the empty dictionary `\x7b\x7d` used by `diff_trees` for absent sides. -/
def emptyTree : Tree := Tree.node []

theorem lookupT_sizeOf {k : String} {t o : Tree} (h : lookupT k t = some o) :
    sizeOf o + 2 ≤ sizeOf t := by
  cases t with
  | node cs =>
    simp only [lookupT, Option.map_eq_some'] at h
    obtain ⟨p, hp, hpo⟩ := h
    have hm := List.mem_of_find?_eq_some hp
    have h1 : sizeOf p < sizeOf cs := List.sizeOf_lt_of_mem hm
    cases p with
    | mk a b =>
      simp only at hpo
      subst hpo
      simp only [Tree.node.sizeOf_spec, Prod.mk.sizeOf_spec] at h1 ⊢
      omega

/- a structural size measure for trees, used as recursion fuel for the
differ (`sizeOf` of a nested inductive is not executable). -/
mutual

def treeSz : Tree → Nat
  | .node cs => forestSz cs
termination_by structural t => t

def forestSz : List (String × Tree) → Nat
  | [] => 1
  | (_, t) :: rest => 1 + treeSz t + forestSz rest
termination_by structural l => l

end

theorem one_le_forestSz (cs : List (String × Tree)) : 1 ≤ forestSz cs := by
  cases cs with
  | nil => simp [forestSz]
  | cons p rest => cases p; simp [forestSz]; omega

theorem one_le_treeSz (t : Tree) : 1 ≤ treeSz t := by
  cases t with
  | node cs => simpa [treeSz] using one_le_forestSz cs

theorem treeSz_of_mem {p : String × Tree} {cs : List (String × Tree)} (h : p ∈ cs) :
    treeSz p.2 < forestSz cs := by
  induction cs with
  | nil => cases h
  | cons q rest ih =>
    cases q with
    | mk a b =>
      rcases List.mem_cons.mp h with h1 | h1
      · subst h1
        simp only [forestSz]
        have := one_le_forestSz rest
        omega
      · have := ih h1
        simp only [forestSz]
        omega

theorem lookupT_treeSz {k : String} {t o : Tree} (h : lookupT k t = some o) :
    treeSz o < treeSz t := by
  cases t with
  | node cs =>
    simp only [lookupT, Option.map_eq_some'] at h
    obtain ⟨p, hp, hpo⟩ := h
    have hm := List.mem_of_find?_eq_some hp
    have h1 := treeSz_of_mem hm
    rw [hpo] at h1
    simpa [treeSz] using h1

/- the total number of nodes of a tree (every entry of every level). -/
mutual

def countNodes : Tree → Nat
  | .node cs => countForest cs
termination_by structural t => t

def countForest : List (String × Tree) → Nat
  | [] => 0
  | (_, t) :: rest => 1 + countNodes t + countForest rest
termination_by structural l => l

end

/- well-formedness, as a computable test: keys are unique on every level,
as for every value that a Python dict can hold. -/
mutual

def wfTreeB : Tree → Bool
  | .node cs => decide ((cs.map Prod.fst).Nodup) && wfForestB cs
termination_by structural t => t

def wfForestB : List (String × Tree) → Bool
  | [] => true
  | (_, t) :: rest => wfTreeB t && wfForestB rest
termination_by structural l => l

end

/-- well-formedness: keys are unique on every level. -/
def wfTree (t : Tree) : Prop := wfTreeB t = true

theorem wfForestB_mem {cs : List (String × Tree)} (h : wfForestB cs = true)
    {p : String × Tree} (hp : p ∈ cs) : wfTreeB p.2 = true := by
  induction cs with
  | nil => cases hp
  | cons q rest ih =>
    cases q with
    | mk a b =>
      simp only [wfForestB, Bool.and_eq_true] at h
      rcases List.mem_cons.mp hp with h1 | h1
      · subst h1; exact h.1
      · exact ih h.2 h1

theorem wfTree_node {cs : List (String × Tree)} :
    wfTree (Tree.node cs) ↔ (cs.map Prod.fst).Nodup ∧ ∀ p ∈ cs, wfTree p.2 := by
  constructor
  · intro h
    simp only [wfTree, wfTreeB, Bool.and_eq_true, decide_eq_true_eq] at h
    exact ⟨h.1, fun p hp => wfForestB_mem h.2 hp⟩
  · intro ⟨h1, h2⟩
    simp only [wfTree, wfTreeB, Bool.and_eq_true, decide_eq_true_eq]
    refine ⟨h1, ?_⟩
    clear h1
    induction cs with
    | nil => rfl
    | cons q rest ih =>
      cases q with
      | mk a b =>
        simp only [wfForestB, Bool.and_eq_true]
        exact ⟨h2 (a, b) (List.mem_cons_self _ _),
          ih (fun p hp => h2 p (List.mem_cons_of_mem _ hp))⟩

/-- structural identity of two trees as nested mappings: Python `==` on
nested dicts, which compares key sets and, recursively, the values and
ignores insertion order. -/
def TreeEquiv : Tree → Tree → Prop
  | a, b => (∀ k, (lookupT k a).isSome ↔ (lookupT k b).isSome) ∧
      (∀ k x y, lookupT k a = some x → lookupT k b = some y → TreeEquiv x y)
termination_by a _ => sizeOf a
decreasing_by
  rename_i h1 _
  have := lookupT_sizeOf h1
  omega

/-! ### A canonical total order on keys

Used to enumerate `set(old_tree) | set(new_tree)` deterministically. -/

/-- lexicographic comparison of character lists. -/
def charListLe : List Char → List Char → Bool
  | [], _ => true
  | _ :: _, [] => false
  | a :: as, b :: bs => if a < b then true else if b < a then false else charListLe as bs

theorem charListLe_head {u v : Char} {us vs : List Char}
    (h : charListLe (u :: us) (v :: vs) = true) : ¬ v < u := by
  intro hvu
  have huv : ¬ u < v := lt_asymm hvu
  simp [charListLe, huv, hvu] at h

theorem charListLe_total : ∀ x y, charListLe x y = true ∨ charListLe y x = true := by
  intro x
  induction x with
  | nil => intro y; left; rfl
  | cons c cs ih =>
    intro y
    cases y with
    | nil => right; rfl
    | cons d ds =>
      rcases lt_trichotomy c d with h | h | h
      · left; simp [charListLe, h]
      · subst h
        rcases ih ds with h2 | h2
        · left; simp [charListLe, h2]
        · right; simp [charListLe, h2]
      · right; simp [charListLe, h, lt_asymm h]

theorem charListLe_trans : ∀ x y z, charListLe x y = true → charListLe y z = true →
    charListLe x z = true := by
  intro x
  induction x with
  | nil => intro y z _ _; rfl
  | cons u us ih =>
    intro y z h1 h2
    cases y with
    | nil => simp [charListLe] at h1
    | cons v vs =>
      cases z with
      | nil => simp [charListLe] at h2
      | cons w ws =>
        have hvu : ¬ v < u := charListLe_head h1
        have hwv : ¬ w < v := charListLe_head h2
        have huv : u ≤ v := not_lt.mp hvu
        have hvw : v ≤ w := not_lt.mp hwv
        by_cases huwlt : u < w
        · simp [charListLe, huwlt]
        · have huw : u = w := le_antisymm (huv.trans hvw) (not_lt.mp huwlt)
          have huv2 : u = v := le_antisymm huv (huw ▸ hvw)
          subst huv2
          subst huw
          simp only [charListLe, lt_irrefl, if_false] at h1 h2 ⊢
          exact ih vs ws h1 h2

theorem charListLe_antisymm : ∀ x y, charListLe x y = true → charListLe y x = true → x = y := by
  intro x
  induction x with
  | nil =>
    intro y _ h2
    cases y with
    | nil => rfl
    | cons d ds => simp [charListLe] at h2
  | cons u us ih =>
    intro y h1 h2
    cases y with
    | nil => simp [charListLe] at h1
    | cons v vs =>
      have hvu : ¬ v < u := charListLe_head h1
      have huv : ¬ u < v := charListLe_head h2
      have he : u = v := le_antisymm (not_lt.mp hvu) (not_lt.mp huv)
      subst he
      simp only [charListLe, lt_irrefl, if_false] at h1 h2
      rw [ih vs h1 h2]

/-- lexicographic comparison of strings through their character data. -/
def strLe (a b : String) : Bool := charListLe a.data b.data

/-- the canonical total order on keys. -/
def keyLe : String → String → Prop := fun a b => strLe a b = true

instance : DecidableRel keyLe := fun a b => by
  unfold keyLe; infer_instance

instance : IsTotal String keyLe :=
  ⟨fun a b => charListLe_total a.data b.data⟩

instance : IsTrans String keyLe :=
  ⟨fun a b c h1 h2 => charListLe_trans a.data b.data c.data h1 h2⟩

instance : IsAntisymm String keyLe :=
  ⟨fun a b h1 h2 => by
    have h := charListLe_antisymm a.data b.data h1 h2
    cases a; cases b; exact congrArg String.mk h⟩

/-- canonical enumeration of `set(old_tree) | set(new_tree)`: the distinct
keys of both levels, sorted.  It is a function of the union of the key sets
alone, matching the fact that a CPython set iterates independently of which
operand a member came from. -/
def unionKeys (old_tree new_tree : Tree) : List String :=
  List.insertionSort keyLe (keysOf old_tree ++ keysOf new_tree).dedup

theorem mem_unionKeys {a b : Tree} {k : String} :
    k ∈ unionKeys a b ↔ k ∈ keysOf a ∨ k ∈ keysOf b := by
  unfold unionKeys
  rw [(List.perm_insertionSort keyLe _).mem_iff, List.mem_dedup, List.mem_append]

theorem unionKeys_nodup (a b : Tree) : (unionKeys a b).Nodup := by
  unfold unionKeys
  exact (List.perm_insertionSort keyLe _).nodup_iff.mpr (List.nodup_dedup _)

theorem unionKeys_comm (a b : Tree) : unionKeys a b = unionKeys b a := by
  unfold unionKeys
  have hperm : ((keysOf a ++ keysOf b).dedup).Perm ((keysOf b ++ keysOf a).dedup) :=
    List.Perm.dedup List.perm_append_comm
  have h1 : (List.insertionSort keyLe (keysOf a ++ keysOf b).dedup).Perm
      (List.insertionSort keyLe (keysOf b ++ keysOf a).dedup) :=
    ((List.perm_insertionSort keyLe _).trans hperm).trans
      (List.perm_insertionSort keyLe _).symm
  exact List.eq_of_perm_of_sorted h1
    (List.sorted_insertionSort keyLe _) (List.sorted_insertionSort keyLe _)

/-! ### The tree differ -/

/-- model of `"  " * indent`. -/
def spaces (indent : Nat) : String := String.join (List.replicate indent "  ")

/-- fuel-indexed body of `diff_trees`; the fuel only serves to make the
recursion structural, see `diffFuel_congr` and `diff_trees_unfold`. -/
def diffFuel : Nat → Tree → Tree → Nat → List String
  | 0, _, _, _ => []
  | fuel + 1, old_tree, new_tree, indent =>
    (unionKeys old_tree new_tree).flatMap fun key =>
      match lookupT key old_tree, lookupT key new_tree with
      | some o, none =>
          (spaces indent ++ "- " ++ key) :: diffFuel fuel o emptyTree (indent + 1)
      | none, some n =>
          (spaces indent ++ "+ " ++ key) :: diffFuel fuel emptyTree n (indent + 1)
      | some o, some n =>
          let child_diff := diffFuel fuel o n (indent + 1)
          if child_diff = [] then [] else (spaces indent ++ key) :: child_diff
      | none, none => []

/-- model of `diff_trees(old_tree, new_tree, indent)`. -/
def diff_trees (old_tree new_tree : Tree) (indent : Nat) : List String :=
  diffFuel (treeSz old_tree + treeSz new_tree) old_tree new_tree indent

/-- the contribution of one key of the union to the diff: the body of the
`for key in set(old_tree) | set(new_tree)` loop. -/
def diff_chunk (old_tree new_tree : Tree) (indent : Nat) (key : String) : List String :=
  match lookupT key old_tree, lookupT key new_tree with
  | some o, none =>
      (spaces indent ++ "- " ++ key) :: diff_trees o emptyTree (indent + 1)
  | none, some n =>
      (spaces indent ++ "+ " ++ key) :: diff_trees emptyTree n (indent + 1)
  | some o, some n =>
      let child_diff := diff_trees o n (indent + 1)
      if child_diff = [] then [] else (spaces indent ++ key) :: child_diff
  | none, none => []

theorem treeSz_emptyTree : treeSz emptyTree = 1 := by
  simp [emptyTree, treeSz, forestSz]

theorem diffFuel_congr : ∀ (bound fuel1 fuel2 : Nat) (a b : Tree) (ind : Nat),
    treeSz a + treeSz b ≤ bound → treeSz a + treeSz b ≤ fuel1 →
    treeSz a + treeSz b ≤ fuel2 → diffFuel fuel1 a b ind = diffFuel fuel2 a b ind := by
  intro bound
  induction bound with
  | zero =>
    intro fuel1 fuel2 a b ind hb _ _
    have := one_le_treeSz a
    have := one_le_treeSz b
    omega
  | succ N ih =>
    intro fuel1 fuel2 a b ind hb h1 h2
    have ha1 := one_le_treeSz a
    have hb1 := one_le_treeSz b
    cases fuel1 with
    | zero => omega
    | succ f1 =>
      cases fuel2 with
      | zero => omega
      | succ f2 =>
        simp only [diffFuel]
        congr 1
        funext key
        have hemp := treeSz_emptyTree
        cases ho : lookupT key a <;> cases hn : lookupT key b <;> dsimp only
        · rename_i n
          have hns := lookupT_treeSz hn
          rw [ih f1 f2 emptyTree n (ind + 1) (by omega) (by omega) (by omega)]
        · rename_i o
          have hos := lookupT_treeSz ho
          rw [ih f1 f2 o emptyTree (ind + 1) (by omega) (by omega) (by omega)]
        · rename_i o n
          have hos := lookupT_treeSz ho
          have hns := lookupT_treeSz hn
          rw [ih f1 f2 o n (ind + 1) (by omega) (by omega) (by omega)]

/-- the recursion equation of the source's `diff_trees`: iterate over the
union of the key sets; keys only in `old_tree` produce a removed line and a
recursive diff against the empty dict, keys only in `new_tree` symmetrically
an added line, keys in both a recursive diff that is prefixed with a header
line when non-empty and elided entirely when empty. -/
theorem diff_trees_unfold (a b : Tree) (ind : Nat) :
    diff_trees a b ind = (unionKeys a b).flatMap (diff_chunk a b ind) := by
  unfold diff_trees
  have ha1 := one_le_treeSz a
  have hb1 := one_le_treeSz b
  obtain ⟨m, hm⟩ : ∃ m, treeSz a + treeSz b = m + 1 := by
    refine ⟨treeSz a + treeSz b - 1, by omega⟩
  rw [hm]
  simp only [diffFuel]
  congr 1
  funext key
  unfold diff_chunk diff_trees
  have hemp := treeSz_emptyTree
  cases ho : lookupT key a <;> cases hn : lookupT key b <;> dsimp only
  · rename_i n
    have hns := lookupT_treeSz hn
    rw [diffFuel_congr (m + 1) m (treeSz emptyTree + treeSz n) emptyTree n (ind + 1)
      (by omega) (by omega) (by omega)]
  · rename_i o
    have hos := lookupT_treeSz ho
    rw [diffFuel_congr (m + 1) m (treeSz o + treeSz emptyTree) o emptyTree (ind + 1)
      (by omega) (by omega) (by omega)]
  · rename_i o n
    have hos := lookupT_treeSz ho
    have hns := lookupT_treeSz hn
    rw [diffFuel_congr (m + 1) m (treeSz o + treeSz n) o n (ind + 1)
      (by omega) (by omega) (by omega)]


/-! ### Basic lookup lemmas -/

theorem lookupT_node_nil (k : String) : lookupT k (Tree.node []) = none := by
  rfl

theorem lookupT_node_cons (k a : String) (b : Tree) (rest : List (String × Tree)) :
    lookupT k (Tree.node ((a, b) :: rest)) =
      if a = k then some b else lookupT k (Tree.node rest) := by
  by_cases hak : a = k
  · simp only [lookupT, if_pos hak]
    rw [List.find?_cons_of_pos]
    · rfl
    · simpa using hak
  · simp only [lookupT, if_neg hak]
    rw [List.find?_cons_of_neg]
    simpa using hak

theorem lookupT_isSome_iff {k : String} {t : Tree} :
    (lookupT k t).isSome = true ↔ k ∈ keysOf t := by
  cases t with
  | node cs =>
    induction cs with
    | nil => simp [lookupT_node_nil, keysOf]
    | cons p rest ih =>
      cases p with
      | mk a b =>
        rw [lookupT_node_cons]
        by_cases hak : a = k
        · simp [hak, keysOf]
        · simp only [if_neg hak]
          rw [ih]
          simp only [keysOf, List.map_cons, List.mem_cons]
          constructor
          · exact Or.inr
          · rintro (h1 | h1)
            · exact absurd h1.symm hak
            · exact h1

theorem lookupT_eq_none_iff {k : String} {t : Tree} :
    lookupT k t = none ↔ k ∉ keysOf t := by
  rw [← lookupT_isSome_iff]
  cases lookupT k t <;> simp

theorem mem_of_lookupT_eq_some {k : String} {t o : Tree} (h : lookupT k t = some o) :
    k ∈ keysOf t := by
  rw [← lookupT_isSome_iff, h]
  rfl

theorem lookupT_emptyTree (k : String) : lookupT k emptyTree = none := by
  rfl

/-! ### Lemmas about the differ -/

theorem TreeEquiv_def (a b : Tree) :
    TreeEquiv a b ↔ ((∀ k, (lookupT k a).isSome ↔ (lookupT k b).isSome) ∧
      (∀ k x y, lookupT k a = some x → lookupT k b = some y → TreeEquiv x y)) := by
  rw [TreeEquiv]

theorem TreeEquiv_refl (t : Tree) : TreeEquiv t t := by
  suffices H : ∀ N t, treeSz t ≤ N → TreeEquiv t t from H (treeSz t) t le_rfl
  intro N
  induction N with
  | zero => intro t h; have := one_le_treeSz t; omega
  | succ N ih =>
    intro t h
    rw [TreeEquiv_def]
    refine ⟨fun k => Iff.rfl, fun k x y hx hy => ?_⟩
    have hxy : x = y := by rw [hx] at hy; exact (Option.some_inj.mp hy)
    subst hxy
    exact ih x (by have := lookupT_treeSz hx; omega)

theorem diff_trees_self_aux : ∀ N t d, treeSz t ≤ N → diff_trees t t d = [] := by
  intro N
  induction N with
  | zero => intro t d h; have := one_le_treeSz t; omega
  | succ N ih =>
    intro t d h
    rw [diff_trees_unfold, List.flatMap_eq_nil_iff]
    intro k hk
    have hkk : k ∈ keysOf t := by
      rcases mem_unionKeys.mp hk with h1 | h1 <;> exact h1
    obtain ⟨o, ho⟩ := Option.isSome_iff_exists.mp (lookupT_isSome_iff.mpr hkk)
    unfold diff_chunk
    rw [ho]
    dsimp only
    have hrec : diff_trees o o (d + 1) = [] :=
      ih o (d + 1) (by have := lookupT_treeSz ho; omega)
    simp [hrec]

theorem diff_trees_equiv_aux : ∀ N a b d, treeSz a + treeSz b ≤ N → TreeEquiv a b →
    diff_trees a b d = [] := by
  intro N
  induction N with
  | zero => intro a b d h _; have := one_le_treeSz a; have := one_le_treeSz b; omega
  | succ N ih =>
    intro a b d h heq
    rw [TreeEquiv_def] at heq
    rw [diff_trees_unfold, List.flatMap_eq_nil_iff]
    intro k hk
    unfold diff_chunk
    cases ho : lookupT k a with
    | none =>
      have hb : lookupT k b = none := by
        cases hn : lookupT k b with
        | none => rfl
        | some n =>
          have h1 : (lookupT k a).isSome = true := (heq.1 k).mpr (by rw [hn]; rfl)
          rw [ho] at h1
          exact absurd h1 (by simp)
      rw [hb]
    | some o =>
      have hbs : (lookupT k b).isSome := (heq.1 k).mp (by rw [ho]; rfl)
      obtain ⟨n, hn⟩ := Option.isSome_iff_exists.mp hbs
      rw [hn]
      dsimp only
      have hrec : diff_trees o n (d + 1) = [] := by
        refine ih o n (d + 1) ?_ (heq.2 k o n ho hn)
        have := lookupT_treeSz ho
        have := lookupT_treeSz hn
        omega
      simp [hrec]

theorem diff_trees_nil_equiv_aux : ∀ N a b d, treeSz a + treeSz b ≤ N →
    diff_trees a b d = [] → TreeEquiv a b := by
  intro N
  induction N with
  | zero => intro a b d h _; have := one_le_treeSz a; have := one_le_treeSz b; omega
  | succ N ih =>
    intro a b d h hnil
    rw [diff_trees_unfold, List.flatMap_eq_nil_iff] at hnil
    rw [TreeEquiv_def]
    constructor
    · intro k
      cases ho : lookupT k a with
      | none =>
        cases hn : lookupT k b with
        | none => simp
        | some n =>
          exfalso
          have hk : k ∈ unionKeys a b :=
            mem_unionKeys.mpr (Or.inr (mem_of_lookupT_eq_some hn))
          have := hnil k hk
          unfold diff_chunk at this
          rw [ho, hn] at this
          simp at this
      | some o =>
        cases hn : lookupT k b with
        | none =>
          exfalso
          have hk : k ∈ unionKeys a b :=
            mem_unionKeys.mpr (Or.inl (mem_of_lookupT_eq_some ho))
          have := hnil k hk
          unfold diff_chunk at this
          rw [ho, hn] at this
          simp at this
        | some n => simp
    · intro k x y hx hy
      have hk : k ∈ unionKeys a b :=
        mem_unionKeys.mpr (Or.inl (mem_of_lookupT_eq_some hx))
      have hch := hnil k hk
      unfold diff_chunk at hch
      rw [hx, hy] at hch
      dsimp only at hch
      have hrec : diff_trees x y (d + 1) = [] := by
        by_cases hc : diff_trees x y (d + 1) = []
        · exact hc
        · rw [if_neg hc] at hch; simp at hch
      refine ih x y (d + 1) ?_ hrec
      have := lookupT_treeSz hx
      have := lookupT_treeSz hy
      omega


/-! ### Counting the lines of a fully-removed subtree -/

theorem wfTree_lookup {k : String} {t o : Tree} (hwf : wfTree t) (h : lookupT k t = some o) :
    wfTree o := by
  cases t with
  | node cs =>
    simp only [lookupT, Option.map_eq_some'] at h
    obtain ⟨p, hp, hpo⟩ := h
    have hm := List.mem_of_find?_eq_some hp
    rw [← hpo]
    exact (wfTree_node.mp hwf).2 p hm

theorem countForest_eq_sum (cs : List (String × Tree)) (F : String → Nat)
    (hnd : (cs.map Prod.fst).Nodup)
    (hF : ∀ k u, lookupT k (Tree.node cs) = some u → F k = 1 + countNodes u) :
    ((cs.map Prod.fst).map F).sum = countForest cs := by
  induction cs with
  | nil => simp [countForest]
  | cons p rest ih =>
    cases p with
    | mk a b =>
      simp only [List.map_cons, List.sum_cons, countForest]
      have ha : F a = 1 + countNodes b := hF a b (by rw [lookupT_node_cons]; simp)
      have hnd2 : (rest.map Prod.fst).Nodup := (List.nodup_cons.mp hnd).2
      have hane : a ∉ rest.map Prod.fst := (List.nodup_cons.mp hnd).1
      have hF2 : ∀ k u, lookupT k (Tree.node rest) = some u → F k = 1 + countNodes u := by
        intro k u hk
        have hkne : a ≠ k := by
          intro he
          subst he
          exact hane (mem_of_lookupT_eq_some hk)
        exact hF k u (by rw [lookupT_node_cons, if_neg hkne]; exact hk)
      rw [ha, ih hnd2 hF2]

theorem unionKeys_emptyTree_perm {o : Tree} (hnd : (keysOf o).Nodup) :
    (unionKeys o emptyTree).Perm (keysOf o) := by
  unfold unionKeys
  have he : keysOf emptyTree = [] := rfl
  rw [he, List.append_nil, List.dedup_eq_self.mpr hnd]
  exact List.perm_insertionSort keyLe _

theorem removed_all_aux : ∀ N o d, treeSz o ≤ N → wfTree o →
    (diff_trees o emptyTree d).length = countNodes o ∧
    ∀ line ∈ diff_trees o emptyTree d, ∃ dep key, line = spaces dep ++ "- " ++ key := by
  intro N
  induction N with
  | zero => intro o d h _; have := one_le_treeSz o; omega
  | succ N ih =>
    intro o d h hwf
    have hnd : (keysOf o).Nodup := by
      cases o with
      | node cs => exact (wfTree_node.mp hwf).1
    have hperm := unionKeys_emptyTree_perm hnd
    rw [diff_trees_unfold]
    constructor
    · rw [List.length_flatMap]
      have hsum : ((unionKeys o emptyTree).map (List.length ∘ diff_chunk o emptyTree d)).sum
          = ((keysOf o).map (List.length ∘ diff_chunk o emptyTree d)).sum :=
        (hperm.map _).sum_eq
      rw [hsum]
      cases o with
      | node cs =>
        have hF : ∀ k u, lookupT k (Tree.node cs) = some u →
            (List.length ∘ diff_chunk (Tree.node cs) emptyTree d) k = 1 + countNodes u := by
          intro k u hk
          simp only [Function.comp_apply]
          unfold diff_chunk
          rw [hk, lookupT_emptyTree]
          dsimp only
          rw [List.length_cons]
          have hrec := ih u (d + 1) (by have := lookupT_treeSz hk; omega) (wfTree_lookup hwf hk)
          rw [hrec.1]
          omega
        have hsum2 := countForest_eq_sum cs (List.length ∘ diff_chunk (Tree.node cs) emptyTree d)
          hnd hF
        simp only [keysOf]
        rw [hsum2]
        rfl
    · intro line hline
      rw [List.mem_flatMap] at hline
      obtain ⟨k, hk, hlk⟩ := hline
      have hkk : k ∈ keysOf o := hperm.mem_iff.mp hk
      obtain ⟨u, hu⟩ := Option.isSome_iff_exists.mp (lookupT_isSome_iff.mpr hkk)
      unfold diff_chunk at hlk
      rw [hu, lookupT_emptyTree] at hlk
      dsimp only at hlk
      rcases List.mem_cons.mp hlk with h1 | h1
      · exact ⟨d, k, h1⟩
      · have hrec := ih u (d + 1) (by have := lookupT_treeSz hu; omega) (wfTree_lookup hwf hu)
        exact hrec.2 line h1

/-! ### Structured diff entries

The differ is also given in a structured form (depth, marker, key), used to
state positional claims; `diff_render` proves that `diff_trees` is exactly
the rendering of these entries. -/

/-- the classification of one diff line. -/
inductive Marker where
  | added
  | removed
  | header
deriving DecidableEq

/-- rendering of one structured entry as the source renders lines. -/
def renderEntry : Nat × Marker × String → String
  | (d, Marker.removed, k) => spaces d ++ "- " ++ k
  | (d, Marker.added, k) => spaces d ++ "+ " ++ k
  | (d, Marker.header, k) => spaces d ++ k

/-- exchange of the added and removed classifications. -/
def swapMarker : Marker → Marker
  | Marker.added => Marker.removed
  | Marker.removed => Marker.added
  | Marker.header => Marker.header

/-- entry with added and removed exchanged, depth and key unchanged. -/
def swapEntry (e : Nat × Marker × String) : Nat × Marker × String :=
  (e.1, swapMarker e.2.1, e.2.2)

/-- fuel-indexed structured differ, mirroring `diffFuel`. -/
def entriesFuel : Nat → Tree → Tree → Nat → List (Nat × Marker × String)
  | 0, _, _, _ => []
  | fuel + 1, old_tree, new_tree, indent =>
    (unionKeys old_tree new_tree).flatMap fun key =>
      match lookupT key old_tree, lookupT key new_tree with
      | some o, none =>
          (indent, Marker.removed, key) :: entriesFuel fuel o emptyTree (indent + 1)
      | none, some n =>
          (indent, Marker.added, key) :: entriesFuel fuel emptyTree n (indent + 1)
      | some o, some n =>
          let child := entriesFuel fuel o n (indent + 1)
          if child = [] then [] else (indent, Marker.header, key) :: child
      | none, none => []

/-- the structured form of `diff_trees`. -/
def diffEntries (old_tree new_tree : Tree) (indent : Nat) : List (Nat × Marker × String) :=
  entriesFuel (treeSz old_tree + treeSz new_tree) old_tree new_tree indent

/-- the structured contribution of one key of the union. -/
def entry_chunk (old_tree new_tree : Tree) (indent : Nat) (key : String) :
    List (Nat × Marker × String) :=
  match lookupT key old_tree, lookupT key new_tree with
  | some o, none =>
      (indent, Marker.removed, key) :: diffEntries o emptyTree (indent + 1)
  | none, some n =>
      (indent, Marker.added, key) :: diffEntries emptyTree n (indent + 1)
  | some o, some n =>
      let child := diffEntries o n (indent + 1)
      if child = [] then [] else (indent, Marker.header, key) :: child
  | none, none => []

theorem entriesFuel_congr : ∀ (bound fuel1 fuel2 : Nat) (a b : Tree) (ind : Nat),
    treeSz a + treeSz b ≤ bound → treeSz a + treeSz b ≤ fuel1 →
    treeSz a + treeSz b ≤ fuel2 → entriesFuel fuel1 a b ind = entriesFuel fuel2 a b ind := by
  intro bound
  induction bound with
  | zero =>
    intro fuel1 fuel2 a b ind hb _ _
    have := one_le_treeSz a
    have := one_le_treeSz b
    omega
  | succ N ih =>
    intro fuel1 fuel2 a b ind hb h1 h2
    have ha1 := one_le_treeSz a
    have hb1 := one_le_treeSz b
    cases fuel1 with
    | zero => omega
    | succ f1 =>
      cases fuel2 with
      | zero => omega
      | succ f2 =>
        simp only [entriesFuel]
        congr 1
        funext key
        have hemp := treeSz_emptyTree
        cases ho : lookupT key a <;> cases hn : lookupT key b <;> dsimp only
        · rename_i n
          have hns := lookupT_treeSz hn
          rw [ih f1 f2 emptyTree n (ind + 1) (by omega) (by omega) (by omega)]
        · rename_i o
          have hos := lookupT_treeSz ho
          rw [ih f1 f2 o emptyTree (ind + 1) (by omega) (by omega) (by omega)]
        · rename_i o n
          have hos := lookupT_treeSz ho
          have hns := lookupT_treeSz hn
          rw [ih f1 f2 o n (ind + 1) (by omega) (by omega) (by omega)]

theorem diffEntries_unfold (a b : Tree) (ind : Nat) :
    diffEntries a b ind = (unionKeys a b).flatMap (entry_chunk a b ind) := by
  unfold diffEntries
  have ha1 := one_le_treeSz a
  have hb1 := one_le_treeSz b
  obtain ⟨m, hm⟩ : ∃ m, treeSz a + treeSz b = m + 1 := by
    refine ⟨treeSz a + treeSz b - 1, by omega⟩
  rw [hm]
  simp only [entriesFuel]
  congr 1
  funext key
  unfold entry_chunk diffEntries
  have hemp := treeSz_emptyTree
  cases ho : lookupT key a <;> cases hn : lookupT key b <;> dsimp only
  · rename_i n
    have hns := lookupT_treeSz hn
    rw [entriesFuel_congr (m + 1) m (treeSz emptyTree + treeSz n) emptyTree n (ind + 1)
      (by omega) (by omega) (by omega)]
  · rename_i o
    have hos := lookupT_treeSz ho
    rw [entriesFuel_congr (m + 1) m (treeSz o + treeSz emptyTree) o emptyTree (ind + 1)
      (by omega) (by omega) (by omega)]
  · rename_i o n
    have hos := lookupT_treeSz ho
    have hns := lookupT_treeSz hn
    rw [entriesFuel_congr (m + 1) m (treeSz o + treeSz n) o n (ind + 1)
      (by omega) (by omega) (by omega)]

theorem diff_render_aux : ∀ N a b d, treeSz a + treeSz b ≤ N →
    diff_trees a b d = (diffEntries a b d).map renderEntry := by
  intro N
  induction N with
  | zero => intro a b d h; have := one_le_treeSz a; have := one_le_treeSz b; omega
  | succ N ih =>
    intro a b d h
    have ha1 := one_le_treeSz a
    have hb1 := one_le_treeSz b
    have hemp := treeSz_emptyTree
    rw [diff_trees_unfold, diffEntries_unfold, List.map_flatMap]
    apply List.flatMap_congr
    intro key hk
    unfold diff_chunk entry_chunk
    cases ho : lookupT key a <;> cases hn : lookupT key b <;> dsimp only
    · simp
    · rename_i n
      have hns := lookupT_treeSz hn
      rw [ih emptyTree n (d + 1) (by omega), List.map_cons]
      rfl
    · rename_i o
      have hos := lookupT_treeSz ho
      rw [ih o emptyTree (d + 1) (by omega), List.map_cons]
      rfl
    · rename_i o n
      have hos := lookupT_treeSz ho
      have hns := lookupT_treeSz hn
      have hrec : diff_trees o n (d + 1) = (diffEntries o n (d + 1)).map renderEntry :=
        ih o n (d + 1) (by omega)
      by_cases hc : diffEntries o n (d + 1) = []
      · rw [hc] at hrec
        simp only [List.map_nil] at hrec
        rw [if_pos hrec, if_pos hc, List.map_nil]
      · have hc2 : diff_trees o n (d + 1) ≠ [] := by
          rw [hrec]
          simpa using hc
        rw [if_neg hc2, if_neg hc, List.map_cons, hrec]
        rfl

theorem entries_swap_aux : ∀ N a b d, treeSz a + treeSz b ≤ N →
    diffEntries b a d = (diffEntries a b d).map swapEntry := by
  intro N
  induction N with
  | zero => intro a b d h; have := one_le_treeSz a; have := one_le_treeSz b; omega
  | succ N ih =>
    intro a b d h
    have ha1 := one_le_treeSz a
    have hb1 := one_le_treeSz b
    have hemp := treeSz_emptyTree
    rw [diffEntries_unfold b a, diffEntries_unfold a b, List.map_flatMap, unionKeys_comm b a]
    apply List.flatMap_congr
    intro key hk
    unfold entry_chunk
    cases ho : lookupT key a <;> cases hn : lookupT key b <;> dsimp only
    · simp
    · rename_i n
      have hns := lookupT_treeSz hn
      rw [ih emptyTree n (d + 1) (by omega), List.map_cons]
      rfl
    · rename_i o
      have hos := lookupT_treeSz ho
      rw [ih o emptyTree (d + 1) (by omega), List.map_cons]
      rfl
    · rename_i o n
      have hos := lookupT_treeSz ho
      have hns := lookupT_treeSz hn
      have hrec : diffEntries n o (d + 1) = (diffEntries o n (d + 1)).map swapEntry :=
        ih o n (d + 1) (by omega)
      by_cases hc : diffEntries o n (d + 1) = []
      · rw [hc] at hrec
        simp only [List.map_nil] at hrec
        rw [if_pos hrec, if_pos hc, List.map_nil]
      · have hc2 : diffEntries n o (d + 1) ≠ [] := by
          rw [hrec]
          simpa using hc
        rw [if_neg hc2, if_neg hc, List.map_cons, hrec]
        rfl


/-! ### The tree builder as a pure stack machine -/

/-- one stack entry: the indentation level, the command text this node is
keyed by in its parent (`none` for the sentinel root entry), and the
children collected for it so far. -/
abbrev Frame := Int × Option String × List (String × Tree)

/-- Python dict assignment `parent[cmd] = v`: overwrite in place if the key
exists (keeping its position), append otherwise. -/
def insertOrReplace (k : String) (v : Tree) : List (String × Tree) → List (String × Tree)
  | [] => [(k, v)]
  | (a, b) :: rest => if a = k then (a, v) :: rest else (a, b) :: insertOrReplace k v rest

/-- closing a frame: the popped frame becomes a finished node and is stored
under its key in the frame below (in Python the dicts are aliased, so the
assignment happened at push time; folding at pop time is the pure
equivalent). -/
def foldFrame (f g : Frame) : Frame :=
  (g.1, g.2.1, insertOrReplace (f.2.1.getD "") (Tree.node f.2.2) g.2.2)

/-- the pop loop `while stack and stack[-1][0] >= indent: stack.pop()`,
carrying the frame being folded. -/
def popGo (i : Int) (f : Frame) : List Frame → List Frame
  | [] => if f.1 ≥ i then [] else [f]
  | g :: rest => if f.1 ≥ i then popGo i (foldFrame f g) rest else f :: g :: rest

/-- the pop loop on a whole stack. -/
def popWhile (i : Int) : List Frame → List Frame
  | [] => []
  | f :: rest => popGo i f rest

/-- one iteration of the `for line in config_lines` loop.  `none` models the
`IndexError` Python would raise at `stack[-1]` if the pop loop emptied the
stack (`build_tree_total` proves this never happens).  The source computes
`cmd` twice and repeats the pop loop twice; the repetitions are no-ops and
are performed once here. -/
def buildStep (stack : List Frame) (line : List Char) : Option (List Frame) :=
  if skipLine line then some stack
  else
    let indent : Int := (indentOf line : Int)
    let cmd : String := String.mk (strip (rstrip line))
    match popWhile indent stack with
    | [] => none
    | top :: rest => some ((indent, some cmd, ([] : List (String × Tree))) :: top :: rest)

/-- the initial stack `[(-1, root)]`. -/
def initStack : List Frame := [(-1, none, [])]

/-- the whole line loop of `build_tree`. -/
def buildRun (config_lines : List (List Char)) : Option (List Frame) :=
  config_lines.foldlM buildStep initStack

/-- return of `build_tree`: the root dictionary.  In Python `root` is an
alias of the sentinel entry's dict; in the pure model the still-open frames
are folded down into the sentinel first (every real frame has indentation
at least `0`, the sentinel has `-1`). -/
def finalizeStack (s : List Frame) : Option Tree :=
  match popWhile 0 s with
  | [f] => some (Tree.node f.2.2)
  | _ => none

/-- model of `build_tree(config_lines)`. -/
def build_tree (config_lines : List (List Char)) : Option Tree :=
  (buildRun config_lines).bind finalizeStack

/-! ### The item view: non-skipped lines as (indentation, command) pairs -/

/-- the data `build_tree` extracts from one line, or `none` for skipped
lines. -/
def itemOf (line : List Char) : Option (Int × String) :=
  if skipLine line then none
  else some ((indentOf line : Int), String.mk (strip (rstrip line)))

/-- the sequence of non-skipped lines of the input, as items. -/
def itemsOf (config_lines : List (List Char)) : List (Int × String) :=
  config_lines.filterMap itemOf

/-- one parser step on an item. -/
def stepI (stack : List Frame) (it : Int × String) : Option (List Frame) :=
  match popWhile it.1 stack with
  | [] => none
  | top :: rest => some ((it.1, some it.2, ([] : List (String × Tree))) :: top :: rest)

/-- the parser run on a list of items. -/
def runItems (stack : List Frame) (its : List (Int × String)) : Option (List Frame) :=
  its.foldlM stepI stack

theorem buildStep_skip {line : List Char} (h : skipLine line = true) (s : List Frame) :
    buildStep s line = some s := by
  simp [buildStep, h]

theorem buildStep_item {line : List Char} (h : skipLine line = false) (s : List Frame) :
    buildStep s line = stepI s ((indentOf line : Int), String.mk (strip (rstrip line))) := by
  simp [buildStep, stepI, h]

theorem itemsOf_cons_skip {line : List Char} (h : skipLine line = true)
    (rest : List (List Char)) : itemsOf (line :: rest) = itemsOf rest := by
  simp [itemsOf, itemOf, h]

theorem itemsOf_cons_item {line : List Char} (h : skipLine line = false)
    (rest : List (List Char)) : itemsOf (line :: rest) =
      ((indentOf line : Int), String.mk (strip (rstrip line))) :: itemsOf rest := by
  simp [itemsOf, itemOf, h]

theorem foldlM_buildStep_eq_runItems :
    ∀ (config_lines : List (List Char)) (s : List Frame),
      config_lines.foldlM buildStep s = runItems s (itemsOf config_lines) := by
  intro config_lines
  induction config_lines with
  | nil => intro s; rfl
  | cons line rest ih =>
    intro s
    cases h : skipLine line with
    | true =>
      rw [itemsOf_cons_skip h, List.foldlM_cons, buildStep_skip h]
      simpa using ih s
    | false =>
      rw [itemsOf_cons_item h, List.foldlM_cons, buildStep_item h]
      unfold runItems
      rw [List.foldlM_cons]
      cases h2 : stepI s ((indentOf line : Int), String.mk (strip (rstrip line))) with
      | none => rfl
      | some s2 => simpa using ih s2

theorem buildRun_eq_runItems (config_lines : List (List Char)) :
    buildRun config_lines = runItems initStack (itemsOf config_lines) :=
  foldlM_buildStep_eq_runItems config_lines initStack

/-! ### Reference (recursive) builder -/

/-- folding a sequence of dict assignments into a level. -/
def foldIOR (d ops : List (String × Tree)) : List (String × Tree) :=
  ops.foldl (fun d2 p => insertOrReplace p.1 p.2 d2) d

/-- the assignments performed at one level: an item strictly more indented
than the threshold opens a node whose subtree is built from the following
strictly-more-indented items. -/
def refOps (t : Int) : List (Int × String) → List (String × Tree)
  | [] => []
  | (i, c) :: rest =>
    if t < i then
      (c, Tree.node (foldIOR [] (refOps i (rest.takeWhile (fun p => i < p.1)))))
        :: refOps t (rest.dropWhile (fun p => i < p.1))
    else refOps t rest
termination_by its => its.length
decreasing_by
  · have h1 : (List.takeWhile (fun (p : Int × String) => decide (i < p.1)) rest).Sublist rest :=
      List.takeWhile_sublist _
    have := h1.length_le
    simp only [List.length_cons]
    omega
  · have h1 : (List.dropWhile (fun (p : Int × String) => decide (i < p.1)) rest).Sublist rest :=
      List.dropWhile_sublist _
    have := h1.length_le
    simp only [List.length_cons]
    omega
  · simp only [List.length_cons]
    omega

/-- the children mapping one level of the reference builder produces. -/
def refLevel (t : Int) (its : List (Int × String)) : List (String × Tree) :=
  foldIOR [] (refOps t its)

theorem refOps_nil (t : Int) : refOps t [] = [] := by
  simp [refOps]

theorem refOps_cons_lt {t i : Int} (h : t < i) (c : String) (rest : List (Int × String)) :
    refOps t ((i, c) :: rest) =
      (c, Tree.node (refLevel i (rest.takeWhile (fun p => i < p.1))))
        :: refOps t (rest.dropWhile (fun p => i < p.1)) := by
  rw [refOps, if_pos h]
  rfl

/-! ### Pop-loop lemmas -/

theorem foldFrame_fst (f g : Frame) : (foldFrame f g).1 = g.1 := rfl

theorem popWhile_lt {i : Int} {f : Frame} (h : f.1 < i) (s : List Frame) :
    popWhile i (f :: s) = f :: s := by
  cases s <;> simp [popWhile, popGo, not_le.mpr h]

theorem popGo_compose {t1 t2 : Int} (h : t1 ≤ t2) :
    ∀ (rest : List Frame) (f : Frame), popWhile t1 (popGo t2 f rest) = popGo t1 f rest := by
  intro rest
  induction rest with
  | nil =>
    intro f
    by_cases hf : f.1 ≥ t2
    · have hf1 : f.1 ≥ t1 := le_trans h hf
      simp [popGo, hf, hf1, popWhile]
    · by_cases hf1 : f.1 ≥ t1
      · simp [popGo, hf, hf1, popWhile]
      · simp [popGo, hf, hf1, popWhile]
  | cons g r ih =>
    intro f
    by_cases hf : f.1 ≥ t2
    · have hf1 : f.1 ≥ t1 := le_trans h hf
      simp only [popGo, if_pos hf, if_pos hf1]
      exact ih (foldFrame f g)
    · simp only [popGo, if_neg hf]
      by_cases hf1 : f.1 ≥ t1
      · simp [popWhile, popGo, hf1]
      · simp [popWhile, popGo, hf1]

theorem popWhile_compose {t1 t2 : Int} (h : t1 ≤ t2) (s : List Frame) :
    popWhile t1 (popWhile t2 s) = popWhile t1 s := by
  cases s with
  | nil => rfl
  | cons f rest => exact popGo_compose h rest f

theorem popWhile_fold {i : Int} {f g : Frame} (hf : f.1 ≥ i) (hg : g.1 < i)
    (s : List Frame) : popWhile i (f :: g :: s) = foldFrame f g :: s := by
  have hg2 : (foldFrame f g).1 < i := hg
  cases s with
  | nil => simp [popWhile, popGo, hf, not_le.mpr hg2]
  | cons h2 r => simp [popWhile, popGo, hf, not_le.mpr hg2]

theorem dropWhile_head_false {α : Type} {p : α → Bool} {l : List α}
    {b : α} {t : List α} (h : l.dropWhile p = b :: t) :
    p b = false := by
  induction l with
  | nil => simp [List.dropWhile] at h
  | cons a r ih =>
    rw [List.dropWhile_cons] at h
    by_cases ha : p a = true
    · rw [if_pos ha] at h
      exact ih h
    · rw [if_neg ha] at h
      injection h with h1 h2
      rw [← h1]
      exact Bool.eq_false_iff.mpr ha


theorem foldIOR_cons (d : List (String × Tree)) (k : String) (v : Tree)
    (ops : List (String × Tree)) :
    foldIOR d ((k, v) :: ops) = foldIOR (insertOrReplace k v d) ops := rfl

theorem foldIOR_nil (d : List (String × Tree)) : foldIOR d [] = d := rfl

/-- the run of the parser from a stack whose top frame is shallower than
every remaining item: the machine builds, below the top frame, exactly the
children that the reference builder assigns at this level. -/
theorem runItems_spec_aux : ∀ (n : Nat) (its : List (Int × String)), its.length ≤ n →
    ∀ (fi : Int) (fk : Option String) (fc : List (String × Tree)) (s2 : List Frame),
    (∀ it ∈ its, fi < it.1) →
    ∃ s3, runItems ((fi, fk, fc) :: s2) its = some s3 ∧
      popWhile (fi + 1) s3 = (fi, fk, foldIOR fc (refOps fi its)) :: s2 := by
  intro n
  induction n with
  | zero =>
    intro its hlen fi fk fc s2 hits
    have hnil : its = [] := List.eq_nil_of_length_eq_zero (Nat.le_zero.mp hlen)
    subst hnil
    refine ⟨(fi, fk, fc) :: s2, rfl, ?_⟩
    rw [refOps_nil, foldIOR_nil, popWhile_lt (by show fi < fi + 1; omega)]
  | succ n ih =>
    intro its hlen fi fk fc s2 hits
    cases its with
    | nil =>
      refine ⟨(fi, fk, fc) :: s2, rfl, ?_⟩
      rw [refOps_nil, foldIOR_nil, popWhile_lt (by show fi < fi + 1; omega)]
    | cons it rest =>
      obtain ⟨i, c⟩ := it
      have hfi : fi < i := hits (i, c) (List.mem_cons_self _ _)
      set tw := rest.takeWhile (fun p => i < p.1) with htw
      set dw := rest.dropWhile (fun p => i < p.1) with hdw
      have hsplit : tw ++ dw = rest := List.takeWhile_append_dropWhile _ _
      have hstep1 : stepI ((fi, fk, fc) :: s2) (i, c) =
          some ((i, some c, ([] : List (String × Tree))) :: (fi, fk, fc) :: s2) := by
        simp only [stepI]
        rw [popWhile_lt (show ((fi, fk, fc) : Frame).1 < i from hfi)]
      have hsubmem : ∀ it2 ∈ tw, i < it2.1 := by
        intro it2 hit2
        have := List.mem_takeWhile_imp hit2
        simpa using this
      have hsublen : tw.length ≤ n := by
        have h1 : tw.length ≤ rest.length := (List.takeWhile_sublist _).length_le
        have h2 : rest.length + 1 ≤ n + 1 := by simpa using hlen
        omega
      obtain ⟨s4, hrun4, hpop4⟩ :=
        ih tw hsublen i (some c) [] ((fi, fk, fc) :: s2) hsubmem
      have hrunsplit : runItems ((fi, fk, fc) :: s2) ((i, c) :: rest) = runItems s4 dw := by
        unfold runItems at hrun4 ⊢
        rw [← hsplit, List.foldlM_cons, hstep1]
        show ((tw ++ dw).foldlM stepI ((i, some c, ([] : List (String × Tree))) ::
          (fi, fk, fc) :: s2)) = dw.foldlM stepI s4
        rw [List.foldlM_append, hrun4]
        rfl
      have hrefops : refOps fi ((i, c) :: rest) =
          (c, Tree.node (refLevel i tw)) :: refOps fi dw := by
        rw [refOps_cons_lt hfi]
      cases hdwe : dw with
      | nil =>
        refine ⟨s4, by rw [hrunsplit, hdwe]; rfl, ?_⟩
        have hcomp : popWhile (fi + 1) s4 = popWhile (fi + 1) (popWhile (i + 1) s4) :=
          (popWhile_compose (by omega) s4).symm
        rw [hcomp, hpop4,
          popWhile_fold (show ((i, some c, foldIOR [] (refOps i tw)) : Frame).1 ≥ fi + 1 by
              show i ≥ fi + 1; omega)
            (show ((fi, fk, fc) : Frame).1 < fi + 1 by show fi < fi + 1; omega)]
        rw [hrefops, hdwe, refOps_nil, foldIOR_cons, foldIOR_nil]
        rfl
      | cons it2 rest3 =>
        obtain ⟨i2, c2⟩ := it2
        have hi2le : i2 ≤ i := by
          have hfalse := dropWhile_head_false (hdw ▸ hdwe)
          simpa using hfalse
        have hmem2 : ((i2, c2) : Int × String) ∈ rest := by
          have h1 : ((i2, c2) : Int × String) ∈ dw := by
            rw [hdwe]
            exact List.mem_cons_self _ _
          exact (List.dropWhile_sublist _).subset h1
        have hi2f : fi < i2 := hits (i2, c2) (List.mem_cons_of_mem _ hmem2)
        have hpops4 : popWhile i2 s4 =
            (fi, fk, insertOrReplace c (Tree.node (refLevel i tw)) fc) :: s2 := by
          have hcomp : popWhile i2 s4 = popWhile i2 (popWhile (i + 1) s4) :=
            (popWhile_compose (by omega) s4).symm
          rw [hcomp, hpop4,
            popWhile_fold (show ((i, some c, foldIOR [] (refOps i tw)) : Frame).1 ≥ i2 by
                show i ≥ i2; omega)
              (show ((fi, fk, fc) : Frame).1 < i2 by show fi < i2; omega)]
          rfl
        have hstep2 : stepI s4 (i2, c2) =
            stepI ((fi, fk, insertOrReplace c (Tree.node (refLevel i tw)) fc) :: s2) (i2, c2) := by
          simp only [stepI]
          rw [hpops4, popWhile_lt (show ((fi, fk,
            insertOrReplace c (Tree.node (refLevel i tw)) fc) : Frame).1 < i2 from hi2f)]
        have hdwmem : ∀ it3 ∈ dw, fi < it3.1 := by
          intro it3 hit3
          exact hits it3 (List.mem_cons_of_mem _ ((List.dropWhile_sublist _).subset hit3))
        have hdwlen : dw.length ≤ n := by
          have h1 : dw.length ≤ rest.length := (List.dropWhile_sublist _).length_le
          have h2 : rest.length + 1 ≤ n + 1 := by simpa using hlen
          omega
        obtain ⟨s5, hrun5, hpop5⟩ :=
          ih dw hdwlen fi fk (insertOrReplace c (Tree.node (refLevel i tw)) fc) s2 hdwmem
        have hrun45 : runItems s4 dw =
            runItems ((fi, fk, insertOrReplace c (Tree.node (refLevel i tw)) fc) :: s2) dw := by
          rw [hdwe]
          unfold runItems
          rw [List.foldlM_cons, List.foldlM_cons, hstep2]
        refine ⟨s5, ?_, ?_⟩
        · rw [hrunsplit, hrun45, hrun5]
        · rw [hpop5, hrefops, foldIOR_cons]


theorem itemsOf_nonneg {config_lines : List (List Char)} :
    ∀ it ∈ itemsOf config_lines, (0 : Int) ≤ it.1 := by
  intro it hit
  rw [itemsOf, List.mem_filterMap] at hit
  obtain ⟨l, _, hol⟩ := hit
  unfold itemOf at hol
  by_cases h : skipLine l
  · simp [h] at hol
  · simp only [h, if_neg, Bool.false_eq_true, ite_false] at hol
    have h2 := Option.some.inj hol
    rw [← h2]
    show (0 : Int) ≤ (indentOf l : Int)
    exact Int.natCast_nonneg _

/-- the parser agrees with the recursive reference builder on every input:
the tree is `refLevel (-1)` of the non-skipped (indentation, command)
items. -/
theorem build_tree_eq_ref (config_lines : List (List Char)) :
    build_tree config_lines = some (Tree.node (refLevel (-1) (itemsOf config_lines))) := by
  unfold build_tree
  rw [buildRun_eq_runItems]
  obtain ⟨s3, hrun, hpop⟩ := runItems_spec_aux (itemsOf config_lines).length
    (itemsOf config_lines) le_rfl (-1) none [] []
    (fun it hit => lt_of_lt_of_le (by norm_num) (itemsOf_nonneg it hit))
  rw [show initStack = ((-1 : Int), (none : Option String),
      ([] : List (String × Tree))) :: [] from rfl]
  rw [hrun]
  show finalizeStack s3 = _
  unfold finalizeStack
  have h0 : (0 : Int) = -1 + 1 := by norm_num
  rw [h0, hpop]
  rfl

/-! ### Skip-line invariance -/

theorem foldlM_buildStep_skip {s : List Char} (h : skipLine s = true) :
    ∀ (pre post : List (List Char)) (st : List Frame),
      (pre ++ s :: post).foldlM buildStep st = (pre ++ post).foldlM buildStep st := by
  intro pre
  induction pre with
  | nil =>
    intro post st
    simp only [List.nil_append, List.foldlM_cons, buildStep_skip h]
    rfl
  | cons l rest ih =>
    intro post st
    simp only [List.cons_append, List.foldlM_cons]
    cases hb : buildStep st l with
    | none => rfl
    | some st2 => exact ih post st2

/-! ### Duplicate-sibling collapse -/

theorem takeWhile_append_boundary {α : Type} (p : α → Bool) {b : α}
    (hb : p b = false) (l r : List α) :
    (l ++ b :: r).takeWhile p = l.takeWhile p := by
  induction l with
  | nil => simp [List.takeWhile_cons, hb]
  | cons a t ih =>
    rw [List.cons_append, List.takeWhile_cons, List.takeWhile_cons]
    cases p a <;> simp [ih]

theorem dropWhile_append_boundary {α : Type} (p : α → Bool) {b : α}
    (hb : p b = false) (l r : List α) :
    (l ++ b :: r).dropWhile p = l.dropWhile p ++ b :: r := by
  induction l with
  | nil => simp [List.dropWhile_cons, hb]
  | cons a t ih =>
    rw [List.cons_append, List.dropWhile_cons, List.dropWhile_cons]
    cases p a <;> simp [ih]

theorem takeWhile_all {α : Type} (p : α → Bool) {l : List α}
    (h : ∀ x ∈ l, p x = true) : l.takeWhile p = l := by
  induction l with
  | nil => rfl
  | cons a t ih =>
    rw [List.takeWhile_cons, h a (List.mem_cons_self _ _)]
    simp only [ite_true]
    rw [ih (fun x hx => h x (List.mem_cons_of_mem _ hx))]

theorem dropWhile_all {α : Type} (p : α → Bool) {l : List α}
    (h : ∀ x ∈ l, p x = true) : l.dropWhile p = [] := by
  induction l with
  | nil => rfl
  | cons a t ih =>
    rw [List.dropWhile_cons, h a (List.mem_cons_self _ _)]
    simp only [ite_true]
    exact ih (fun x hx => h x (List.mem_cons_of_mem _ hx))

theorem refOps_append_boundary : ∀ (n : Nat) (xs : List (Int × String)), xs.length ≤ n →
    ∀ (t i : Int) (c : String) (zs : List (Int × String)), (∀ x ∈ xs, i ≤ x.1) →
    refOps t (xs ++ (i, c) :: zs) = refOps t xs ++ refOps t ((i, c) :: zs) := by
  intro n
  induction n with
  | zero =>
    intro xs hlen t i c zs _
    have hnil : xs = [] := List.eq_nil_of_length_eq_zero (Nat.le_zero.mp hlen)
    subst hnil
    simp [refOps_nil]
  | succ n ih =>
    intro xs hlen t i c zs hxs
    cases xs with
    | nil => simp [refOps_nil]
    | cons x rest =>
      obtain ⟨i0, c0⟩ := x
      have hi0 : i ≤ i0 := hxs (i0, c0) (List.mem_cons_self _ _)
      have hbfalse : (fun p => decide (i0 < p.1)) ((i, c) : Int × String) = false := by
        simp
        omega
      by_cases ht : t < i0
      · rw [List.cons_append, refOps_cons_lt ht, refOps_cons_lt ht]
        rw [takeWhile_append_boundary (fun (p : Int × String) => decide (i0 < p.1)) hbfalse,
          dropWhile_append_boundary (fun (p : Int × String) => decide (i0 < p.1)) hbfalse]
        rw [List.cons_append]
        congr 1
        have hdlen : (rest.dropWhile (fun p => decide (i0 < p.1))).length ≤ n := by
          have h0 : (List.dropWhile (fun (p : Int × String) => decide (i0 < p.1))
              rest).Sublist rest := List.dropWhile_sublist _
          have h1 := h0.length_le
          have h2 : rest.length + 1 ≤ n + 1 := by simpa using hlen
          omega
        exact ih _ hdlen t i c zs
          (fun x hx => hxs x (List.mem_cons_of_mem _ ((List.dropWhile_sublist _).subset hx)))
      · rw [List.cons_append, refOps, if_neg ht]
        rw [show refOps t ((i0, c0) :: rest) = refOps t rest from by rw [refOps, if_neg ht]]
        have hrlen : rest.length ≤ n := by simpa using hlen
        exact ih rest hrlen t i c zs (fun x hx => hxs x (List.mem_cons_of_mem _ hx))

theorem insertOrReplace_keys (k : String) (v : Tree) (d : List (String × Tree)) :
    (insertOrReplace k v d).map Prod.fst =
      if k ∈ d.map Prod.fst then d.map Prod.fst else d.map Prod.fst ++ [k] := by
  induction d with
  | nil => simp [insertOrReplace]
  | cons p rest ih =>
    obtain ⟨a, b⟩ := p
    by_cases hak : a = k
    · subst hak
      simp [insertOrReplace]
    · rw [show insertOrReplace k v ((a, b) :: rest) =
          (a, b) :: insertOrReplace k v rest from by rw [insertOrReplace, if_neg hak]]
      simp only [List.map_cons]
      rw [ih]
      by_cases hmem : k ∈ rest.map Prod.fst
      · simp [hmem, List.mem_cons]
      · have : k ∉ (a :: rest.map Prod.fst) := by
          intro hc
          rcases List.mem_cons.mp hc with h1 | h1
          · exact hak h1.symm
          · exact hmem h1
        simp [hmem, this]

theorem insertOrReplace_nodup {k : String} {v : Tree} {d : List (String × Tree)}
    (h : (d.map Prod.fst).Nodup) : ((insertOrReplace k v d).map Prod.fst).Nodup := by
  rw [insertOrReplace_keys]
  by_cases hmem : k ∈ d.map Prod.fst
  · simpa [hmem] using h
  · simp only [hmem, ite_false]
    rw [List.nodup_append]
    refine ⟨h, List.nodup_singleton _, ?_⟩
    intro a ha hak
    rw [List.mem_singleton] at hak
    exact hmem (hak ▸ ha)

theorem insertOrReplace_mem_keys (k : String) (v : Tree) (d : List (String × Tree)) :
    k ∈ (insertOrReplace k v d).map Prod.fst := by
  rw [insertOrReplace_keys]
  by_cases hmem : k ∈ d.map Prod.fst
  · simp only [hmem, ite_true]
  · simp [hmem]

theorem insertOrReplace_mem_keys_of_mem {c k : String} {v : Tree} {d : List (String × Tree)}
    (h : c ∈ d.map Prod.fst) : c ∈ (insertOrReplace k v d).map Prod.fst := by
  rw [insertOrReplace_keys]
  by_cases hmem : k ∈ d.map Prod.fst
  · simpa [hmem] using h
  · simp only [hmem, ite_false, List.mem_append]
    exact Or.inl h

theorem lookupT_insertOrReplace_self (k : String) (v : Tree) (d : List (String × Tree)) :
    lookupT k (Tree.node (insertOrReplace k v d)) = some v := by
  induction d with
  | nil =>
    show lookupT k (Tree.node [(k, v)]) = some v
    rw [lookupT_node_cons]
    simp
  | cons p rest ih =>
    obtain ⟨a, b⟩ := p
    by_cases hak : a = k
    · subst hak
      rw [show insertOrReplace a v ((a, b) :: rest) = (a, v) :: rest from by
        rw [insertOrReplace, if_pos rfl]]
      rw [lookupT_node_cons]
      simp
    · rw [show insertOrReplace k v ((a, b) :: rest) =
          (a, b) :: insertOrReplace k v rest from by rw [insertOrReplace, if_neg hak]]
      rw [lookupT_node_cons, if_neg hak]
      exact ih

theorem lookupT_insertOrReplace_other {c k : String} (hck : c ≠ k) (v : Tree)
    (d : List (String × Tree)) :
    lookupT c (Tree.node (insertOrReplace k v d)) = lookupT c (Tree.node d) := by
  induction d with
  | nil =>
    show lookupT c (Tree.node [(k, v)]) = _
    rw [lookupT_node_cons, if_neg (fun h => hck h.symm)]
  | cons p rest ih =>
    obtain ⟨a, b⟩ := p
    by_cases hak : a = k
    · subst hak
      rw [show insertOrReplace a v ((a, b) :: rest) = (a, v) :: rest from by
        rw [insertOrReplace, if_pos rfl]]
      rw [lookupT_node_cons, lookupT_node_cons]
      by_cases hac : a = c
      · exact absurd hac.symm ((fun h => hck h))
      · rw [if_neg hac, if_neg hac]
    · rw [show insertOrReplace k v ((a, b) :: rest) =
          (a, b) :: insertOrReplace k v rest from by rw [insertOrReplace, if_neg hak]]
      rw [lookupT_node_cons, lookupT_node_cons]
      by_cases hac : a = c
      · rw [if_pos hac, if_pos hac]
      · rw [if_neg hac, if_neg hac]
        exact ih

theorem foldIOR_nodup {d : List (String × Tree)} (h : (d.map Prod.fst).Nodup) :
    ∀ ops, ((foldIOR d ops).map Prod.fst).Nodup := by
  intro ops
  induction ops generalizing d with
  | nil => exact h
  | cons p rest ih =>
    obtain ⟨k, v⟩ := p
    rw [foldIOR_cons]
    exact ih (insertOrReplace_nodup h)

theorem foldIOR_mem_keys {c : String} {d : List (String × Tree)}
    (h : c ∈ d.map Prod.fst) : ∀ ops, c ∈ (foldIOR d ops).map Prod.fst := by
  intro ops
  induction ops generalizing d with
  | nil => exact h
  | cons p rest ih =>
    obtain ⟨k, v⟩ := p
    rw [foldIOR_cons]
    exact ih (insertOrReplace_mem_keys_of_mem h)

theorem foldIOR_lookup_absent {c : String} {ops : List (String × Tree)}
    (h : ∀ p ∈ ops, p.1 ≠ c) (d : List (String × Tree)) :
    lookupT c (Tree.node (foldIOR d ops)) = lookupT c (Tree.node d) := by
  induction ops generalizing d with
  | nil => rfl
  | cons p rest ih =>
    obtain ⟨k, v⟩ := p
    rw [foldIOR_cons]
    rw [ih (fun q hq => h q (List.mem_cons_of_mem _ hq))]
    exact lookupT_insertOrReplace_other
      (fun hck => (h (k, v) (List.mem_cons_self _ _)) hck.symm) v d

theorem foldIOR_append (d ops1 ops2 : List (String × Tree)) :
    foldIOR d (ops1 ++ ops2) = foldIOR (foldIOR d ops1) ops2 :=
  List.foldl_append ..

/-- the assignment list produced by one reference level for a duplicated
sibling: one assignment per occurrence, in order. -/
theorem refOps_dup (t i : Int) (c : String) (xs sub1 sub2 : List (Int × String))
    (ht : t < i) (hxs : ∀ x ∈ xs, i ≤ x.1)
    (hs1 : ∀ x ∈ sub1, i < x.1) (hs2 : ∀ x ∈ sub2, i < x.1) :
    refOps t (xs ++ (i, c) :: (sub1 ++ (i, c) :: sub2)) =
      refOps t xs ++ (c, Tree.node (refLevel i sub1)) :: (c, Tree.node (refLevel i sub2)) :: [] := by
  have hbfalse : (fun p => decide (i < p.1)) ((i, c) : Int × String) = false := by
    simp
  rw [refOps_append_boundary xs.length xs le_rfl t i c _ hxs]
  congr 1
  rw [refOps_cons_lt ht]
  rw [takeWhile_append_boundary (fun (p : Int × String) => decide (i < p.1)) hbfalse,
    dropWhile_append_boundary (fun (p : Int × String) => decide (i < p.1)) hbfalse]
  rw [takeWhile_all (fun (p : Int × String) => decide (i < p.1)) (fun x hx => by simpa using hs1 x hx),
    dropWhile_all (fun (p : Int × String) => decide (i < p.1)) (fun x hx => by simpa using hs1 x hx)]
  rw [List.nil_append]
  congr 1
  rw [refOps_cons_lt ht]
  rw [takeWhile_all (fun (p : Int × String) => decide (i < p.1)) (fun x hx => by simpa using hs2 x hx),
    dropWhile_all (fun (p : Int × String) => decide (i < p.1)) (fun x hx => by simpa using hs2 x hx)]
  rw [refOps_nil]


/-! ### The nearest-smaller-indentation chain

For the parser-nesting claim: the parent of a non-skipped line is the
nearest preceding non-skipped line with strictly smaller indentation, and
the stack at any moment consists exactly of that chain (plus the
sentinel). -/

/-- the indentation of item `j` (items are the non-skipped lines). -/
def itmInd (its : List (Int × String)) (j : Nat) : Int := (its.getD j (0, "")).1

/-- the command text of item `j`. -/
def itmCmd (its : List (Int × String)) (j : Nat) : String := (its.getD j (0, "")).2

/-- the nearest preceding item with strictly smaller indentation: the
largest `j < i` with `itmInd j < itmInd i`. -/
def prevSmaller (its : List (Int × String)) (i : Nat) : Option Nat :=
  (List.range i).reverse.find? (fun j => itmInd its j < itmInd its i)

/-- the ancestor chain of item `i` (indices of all its ancestors,
outermost first), following `prevSmaller`. -/
def chain (its : List (Int × String)) : Nat → List Nat
  | i =>
    match _hps : prevSmaller its i with
    | none => []
    | some j => chain its j ++ [j]
termination_by i => i
decreasing_by
  have hmem := List.mem_of_find?_eq_some _hps
  rw [List.mem_reverse, List.mem_range] at hmem
  omega

theorem find?_split {α : Type} {p : α → Bool} :
    ∀ {l : List α} {b : α}, l.find? p = some b →
      ∃ l1 l2, l = l1 ++ b :: l2 ∧ ∀ x ∈ l1, p x = false := by
  intro l
  induction l with
  | nil => intro b h; simp [List.find?] at h
  | cons a t ih =>
    intro b h
    by_cases ha : p a = true
    · rw [List.find?_cons_of_pos _ ha] at h
      injection h with h1
      subst h1
      exact ⟨[], t, rfl, by simp⟩
    · have ha2 : ¬ p a := ha
      rw [List.find?_cons_of_neg _ ha2] at h
      obtain ⟨l1, l2, he, hf⟩ := ih h
      refine ⟨a :: l1, l2, by rw [he, List.cons_append], ?_⟩
      intro x hx
      rcases List.mem_cons.mp hx with h1 | h1
      · subst h1
        exact Bool.eq_false_iff.mpr ha
      · exact hf x h1

theorem prevSmaller_lt {its : List (Int × String)} {i j : Nat}
    (h : prevSmaller its i = some j) : j < i := by
  have hmem := List.mem_of_find?_eq_some h
  rw [List.mem_reverse, List.mem_range] at hmem
  exact hmem

theorem prevSmaller_pred {its : List (Int × String)} {i j : Nat}
    (h : prevSmaller its i = some j) : itmInd its j < itmInd its i := by
  have := List.find?_some h
  simpa using this

theorem prevSmaller_max {its : List (Int × String)} {i k : Nat}
    (h : prevSmaller its i = some k) :
    ∀ j, k < j → j < i → ¬ itmInd its j < itmInd its i := by
  intro j hkj hji hlt
  obtain ⟨l1, l2, he, hf⟩ := find?_split h
  have hpw : ((List.range i).reverse).Pairwise (fun a b => b < a) := by
    rw [List.pairwise_reverse]
    exact List.pairwise_lt_range i
  rw [he] at hpw
  have hjm : j ∈ l1 ++ k :: l2 := by
    rw [← he, List.mem_reverse, List.mem_range]
    exact hji
  have hgt : ∀ b ∈ l2, b < k := by
    have h2 := (List.pairwise_append.mp hpw).2.1
    intro b hb
    exact (List.pairwise_cons.mp h2).1 b hb
  rcases List.mem_append.mp hjm with h1 | h1
  · have := hf j h1
    simp [hlt] at this
  · rcases List.mem_cons.mp h1 with h2 | h2
    · omega
    · have := hgt j h2
      omega

theorem prevSmaller_none {its : List (Int × String)} {i : Nat}
    (h : prevSmaller its i = none) :
    ∀ j, j < i → ¬ itmInd its j < itmInd its i := by
  intro j hji hlt
  have := List.find?_eq_none.mp h j (by rw [List.mem_reverse, List.mem_range]; exact hji)
  simp [hlt] at this

theorem chain_none {its : List (Int × String)} {i : Nat}
    (h : prevSmaller its i = none) : chain its i = [] := by
  rw [chain]
  split
  · rfl
  · rename_i j hj
    rw [h] at hj
    cases hj

theorem chain_some {its : List (Int × String)} {i j : Nat}
    (h : prevSmaller its i = some j) : chain its i = chain its j ++ [j] := by
  rw [chain]
  split
  · rename_i hn
    rw [h] at hn
    cases hn
  · rename_i j2 hj
    rw [h] at hj
    injection hj with hj2
    rw [hj2]

theorem chain_lt {its : List (Int × String)} :
    ∀ i, ∀ x ∈ chain its i, x < i := by
  intro i
  induction i using Nat.strong_induction_on with
  | _ i ih =>
    intro x hx
    cases hps : prevSmaller its i with
    | none => rw [chain_none hps] at hx; cases hx
    | some j =>
      rw [chain_some hps] at hx
      have hji := prevSmaller_lt hps
      rcases List.mem_append.mp hx with h1 | h1
      · have := ih j hji x h1
        omega
      · rw [List.mem_singleton] at h1
        omega

theorem chain_pairwise {its : List (Int × String)} :
    ∀ i, (chain its i ++ [i]).Pairwise (· < ·) := by
  intro i
  induction i using Nat.strong_induction_on with
  | _ i ih =>
    cases hps : prevSmaller its i with
    | none =>
      rw [chain_none hps]
      simp
    | some j =>
      rw [chain_some hps]
      have hji := prevSmaller_lt hps
      rw [List.append_assoc]
      rw [List.pairwise_append]
      refine ⟨(List.pairwise_append.mp (ih j hji)).1, ?_, ?_⟩
      · simp only [List.cons_append, List.nil_append]
        rw [List.pairwise_cons]
        exact ⟨by simp [hji], by simp⟩
      · intro a ha b hb
        have halt : a < j := chain_lt j a ha
        simp only [List.cons_append, List.nil_append, List.mem_cons] at hb
        rcases hb with h1 | h1 | h1
        · omega
        · omega
        · cases h1

theorem chain_mem {its : List (Int × String)} :
    ∀ p k, k ≤ p → (∀ j, k < j → j ≤ p → itmInd its k < itmInd its j) →
      k ∈ chain its p ++ [p] := by
  intro p
  induction p using Nat.strong_induction_on with
  | _ p ih =>
    intro k hkp hmono
    rcases Nat.eq_or_lt_of_le hkp with heq | hlt
    · subst heq
      simp
    · have hk : itmInd its k < itmInd its p := hmono p hlt le_rfl
      have hsome : (prevSmaller its p).isSome := by
        rw [prevSmaller, List.find?_isSome]
        exact ⟨k, by rw [List.mem_reverse, List.mem_range]; exact hlt, by simpa using hk⟩
      obtain ⟨j0, hj0⟩ := Option.isSome_iff_exists.mp hsome
      have hj0p := prevSmaller_lt hj0
      have hkj0 : k ≤ j0 := by
        by_contra hc
        exact prevSmaller_max hj0 k (by omega) hlt hk
      rcases Nat.eq_or_lt_of_le hkj0 with heq2 | hlt2
      · rw [chain_some hj0]
        subst heq2
        simp
      · have hmem := ih j0 hj0p k (le_of_lt hlt2)
          (fun j hj1 hj2 => hmono j hj1 (by omega))
        rw [chain_some hj0]
        rw [List.append_assoc]
        rcases List.mem_append.mp hmem with h1 | h1
        · exact List.mem_append.mpr (Or.inl h1)
        · rw [List.mem_singleton] at h1
          subst h1
          exact List.mem_append.mpr (Or.inr (by simp))

theorem chain_split {its : List (Int × String)} :
    ∀ p k, k ∈ chain its p ++ [p] →
      ∃ suf, chain its p ++ [p] = (chain its k ++ [k]) ++ suf := by
  intro p
  induction p using Nat.strong_induction_on with
  | _ p ih =>
    intro k hk
    rcases List.mem_append.mp hk with h1 | h1
    · cases hps : prevSmaller its p with
      | none => rw [chain_none hps] at h1; cases h1
      | some j =>
        have hjp := prevSmaller_lt hps
        rw [chain_some hps] at h1
        obtain ⟨suf2, hsuf2⟩ := ih j hjp k h1
        refine ⟨suf2 ++ [p], ?_⟩
        rw [chain_some hps, hsuf2]
        simp [List.append_assoc]
    · rw [List.mem_singleton] at h1
      subst h1
      exact ⟨[], by simp⟩


/-! ### The stack shape invariant -/

/-- the observable part of a frame: indentation and key. -/
def frameProj (f : Frame) : Int × Option String := (f.1, f.2.1)

/-- the projection an open frame for item `j` has. -/
def itemProj (its : List (Int × String)) (j : Nat) : Int × Option String :=
  (itmInd its j, some (itmCmd its j))

/-- the projected stack after the first `m` items: the ancestor chain of the
last item (top first), then the sentinel. -/
def openProj (its : List (Int × String)) : Nat → List (Int × Option String)
  | 0 => [(-1, none)]
  | m + 1 => ((chain its m ++ [m]).reverse.map (itemProj its)) ++ [(-1, none)]

theorem popGo_map_proj (t : Int) : ∀ (rest : List Frame) (f : Frame),
    (popGo t f rest).map frameProj =
      ((f :: rest).map frameProj).dropWhile (fun q => q.1 ≥ t) := by
  intro rest
  induction rest with
  | nil =>
    intro f
    by_cases hf : f.1 ≥ t
    · simp [popGo, hf, List.dropWhile_cons, frameProj]
    · simp [popGo, hf, List.dropWhile_cons, frameProj]
  | cons g r ih =>
    intro f
    by_cases hf : f.1 ≥ t
    · rw [show popGo t f (g :: r) = popGo t (foldFrame f g) r from by simp [popGo, hf]]
      rw [ih (foldFrame f g)]
      have hproj : frameProj (foldFrame f g) = frameProj g := rfl
      simp only [List.map_cons, hproj, List.dropWhile_cons]
      have hpf : ((frameProj f).1 ≥ t) = True := by
        simp [frameProj, hf]
      simp [hpf]
    · simp [popGo, hf, List.map_cons, List.dropWhile_cons, frameProj]

theorem popWhile_map_proj (t : Int) (s : List Frame) :
    (popWhile t s).map frameProj = (s.map frameProj).dropWhile (fun q => q.1 ≥ t) := by
  cases s with
  | nil => rfl
  | cons f rest => exact popGo_map_proj t rest f

theorem itmInd_nonneg {its : List (Int × String)} (hpos : ∀ it ∈ its, (0 : Int) ≤ it.1)
    {m : Nat} (hm : m < its.length) : 0 ≤ itmInd its m := by
  rw [itmInd, List.getD_eq_getElem _ _ hm]
  exact hpos _ (List.getElem_mem hm)

theorem chain_le_last {its : List (Int × String)} {m j : Nat}
    (hj : j ∈ chain its m ++ [m]) : j ≤ m := by
  rcases List.mem_append.mp hj with h1 | h1
  · exact le_of_lt (chain_lt m j h1)
  · rw [List.mem_singleton] at h1
    omega

/-- popping the stack for item `m` leaves exactly the frames of the
ancestor chain of `m` (and the sentinel below them). -/
theorem chainpop {its : List (Int × String)} (hpos : ∀ it ∈ its, (0 : Int) ≤ it.1)
    {m : Nat} (hm : m < its.length) :
    (openProj its m).dropWhile (fun q => q.1 ≥ itmInd its m) =
      ((chain its m).reverse.map (itemProj its)) ++ [((-1 : Int), (none : Option String))] := by
  have hm0 := itmInd_nonneg hpos hm
  cases m with
  | zero =>
    rw [show chain its 0 = [] from chain_none rfl]
    simp only [openProj, List.dropWhile_cons]
    have hc : ¬ (((-1 : Int), (none : Option String)).1 ≥ itmInd its 0) := by
      show ¬ ((-1 : Int) ≥ itmInd its 0)
      omega
    simp [hc]
  | succ m2 =>
    cases hps : prevSmaller its (m2 + 1) with
    | none =>
      rw [chain_none hps]
      simp only [openProj]
      have hall : ∀ q ∈ (chain its m2 ++ [m2]).reverse.map (itemProj its),
          (fun (q : Int × Option String) => decide (q.1 ≥ itmInd its (m2 + 1))) q = true := by
        intro q hq
        rw [List.mem_map] at hq
        obtain ⟨j, hj, hjq⟩ := hq
        rw [List.mem_reverse] at hj
        have hjlt : j < m2 + 1 := by
          have := chain_le_last hj
          omega
        have hnot := prevSmaller_none hps j hjlt
        rw [← hjq]
        simp only [itemProj, decide_eq_true_eq]
        omega
      have hbf : (fun (q : Int × Option String) => decide (q.1 ≥ itmInd its (m2 + 1)))
          ((-1 : Int), (none : Option String)) = false := by
        simp only [decide_eq_false_iff_not]
        show ¬ ((-1 : Int) ≥ itmInd its (m2 + 1))
        omega
      rw [show ((chain its m2 ++ [m2]).reverse.map (itemProj its)) ++
            [((-1 : Int), (none : Option String))] =
          ((chain its m2 ++ [m2]).reverse.map (itemProj its)) ++
            ((-1 : Int), (none : Option String)) :: [] from rfl]
      rw [dropWhile_append_boundary (fun (q : Int × Option String) =>
        decide (q.1 ≥ itmInd its (m2 + 1))) hbf]
      rw [dropWhile_all (fun (q : Int × Option String) =>
        decide (q.1 ≥ itmInd its (m2 + 1))) hall]
      simp
    | some k =>
      rw [chain_some hps]
      have hkm := prevSmaller_lt hps
      have hkpred := prevSmaller_pred hps
      have hkmem : k ∈ chain its m2 ++ [m2] := by
        apply chain_mem m2 k (by omega)
        intro j hkj hjm2
        have hnot := prevSmaller_max hps j hkj (by omega)
        omega
      obtain ⟨suf, hsuf⟩ := chain_split m2 k hkmem
      have hpw : (chain its m2 ++ [m2]).Pairwise (· < ·) := chain_pairwise m2
      rw [hsuf] at hpw
      have hsufgt : ∀ b ∈ suf, k < b := by
        intro b hb
        exact (List.pairwise_append.mp hpw).2.2 k (by simp) b hb
      have hsufle : ∀ b ∈ suf, b ≤ m2 := by
        intro b hb
        have hbmem : b ∈ chain its m2 ++ [m2] := by
          rw [hsuf]
          exact List.mem_append.mpr (Or.inr hb)
        exact chain_le_last hbmem
      have hsufall : ∀ q ∈ suf.reverse.map (itemProj its),
          (fun (q : Int × Option String) => decide (q.1 ≥ itmInd its (m2 + 1))) q = true := by
        intro q hq
        rw [List.mem_map] at hq
        obtain ⟨j, hj, hjq⟩ := hq
        rw [List.mem_reverse] at hj
        have hnot := prevSmaller_max hps j (hsufgt j hj) (by have := hsufle j hj; omega)
        rw [← hjq]
        simp only [itemProj, decide_eq_true_eq]
        omega
      have hbf : (fun (q : Int × Option String) => decide (q.1 ≥ itmInd its (m2 + 1)))
          (itemProj its k) = false := by
        simp only [itemProj, decide_eq_false_iff_not]
        show ¬ (itmInd its k ≥ itmInd its (m2 + 1))
        omega
      simp only [openProj]
      rw [hsuf, List.reverse_append]
      rw [show (chain its k ++ [k]).reverse = k :: (chain its k).reverse from by
        rw [List.reverse_append]
        rfl]
      rw [List.map_append, List.map_cons, List.append_assoc, List.cons_append]
      rw [dropWhile_append_boundary (fun (q : Int × Option String) =>
        decide (q.1 ≥ itmInd its (m2 + 1))) hbf]
      rw [dropWhile_all (fun (q : Int × Option String) =>
        decide (q.1 ≥ itmInd its (m2 + 1))) hsufall]
      simp

/-- the parser invariant: after any number of items, the run has succeeded
and the stack consists, from the top, of open frames for exactly the
ancestor chain of the last item processed (each frame carrying that item's
indentation and command), with the sentinel at the bottom. -/
theorem runItems_shape {its : List (Int × String)} (hpos : ∀ it ∈ its, (0 : Int) ≤ it.1) :
    ∀ m, m ≤ its.length → ∃ s, runItems initStack (its.take m) = some s ∧
      s.map frameProj = openProj its m := by
  intro m
  induction m with
  | zero => exact fun _ => ⟨initStack, rfl, rfl⟩
  | succ m ih =>
    intro hm1
    obtain ⟨s, hrun, hproj⟩ := ih (by omega)
    have hmlt : m < its.length := by omega
    have hpop := popWhile_map_proj (itmInd its m) s
    rw [hproj, chainpop hpos hmlt] at hpop
    obtain ⟨top, rest, htr⟩ : ∃ top rest, popWhile (itmInd its m) s = top :: rest := by
      cases hpw : popWhile (itmInd its m) s with
      | nil =>
        rw [hpw] at hpop
        exfalso
        have := congrArg List.length hpop
        simp at this
      | cons t r => exact ⟨t, r, rfl⟩
    have hstep : stepI s (its.get ⟨m, hmlt⟩) =
        some ((itmInd its m, some (itmCmd its m), ([] : List (String × Tree))) :: top :: rest) := by
      have hi1 : (its.get ⟨m, hmlt⟩).1 = itmInd its m := by
        rw [itmInd, List.getD_eq_getElem _ _ hmlt]
        rfl
      have hi2 : (its.get ⟨m, hmlt⟩).2 = itmCmd its m := by
        rw [itmCmd, List.getD_eq_getElem _ _ hmlt]
        rfl
      rw [stepI, hi1, htr, hi2]
    refine ⟨(itmInd its m, some (itmCmd its m), ([] : List (String × Tree))) :: top :: rest,
      ?_, ?_⟩
    · have htake : its.take (m + 1) = its.take m ++ [its.get ⟨m, hmlt⟩] := by
        rw [List.take_succ]
        congr 1
        rw [List.getElem?_eq_getElem hmlt]
        rfl
      rw [htake]
      unfold runItems at hrun ⊢
      rw [List.foldlM_append, hrun]
      show ([its.get ⟨m, hmlt⟩].foldlM stepI s) = _
      rw [List.foldlM_cons, hstep]
      rfl
    · rw [htr] at hpop
      rw [List.map_cons, hpop]
      simp only [openProj]
      rw [show (chain its m ++ [m]).reverse = m :: (chain its m).reverse from by
        rw [List.reverse_append]
        rfl]
      rw [List.map_cons, List.cons_append]
      rfl


/-! ### The claims -/

/-- C1, full-subtree propagation: if key `k` is present in the old tree with
subtree `o` (a well-formed dict value) and absent from the new tree, then
the diff contains a contiguous block for `k`: the removed line for `k` at
the current depth followed by the recursive diff of `o` against the empty
tree at depth+1; that recursive diff has exactly `countNodes o` lines (one
per descendant, so the block has n+1 lines for n descendants), and every
line of the block is a removed (`"- "`-prefixed) entry. -/
theorem removed_subtree_propagation (old_tree new_tree : Tree) (d : Nat) (k : String)
    (o : Tree) (h1 : lookupT k old_tree = some o) (h2 : lookupT k new_tree = none)
    (hwf : wfTree o) :
    ∃ pre post, diff_trees old_tree new_tree d =
        pre ++ ((spaces d ++ "- " ++ k) :: diff_trees o emptyTree (d + 1)) ++ post ∧
      (diff_trees o emptyTree (d + 1)).length = countNodes o ∧
      ∀ line ∈ (spaces d ++ "- " ++ k) :: diff_trees o emptyTree (d + 1),
        ∃ dep key, line = spaces dep ++ "- " ++ key := by
  have hk : k ∈ unionKeys old_tree new_tree :=
    mem_unionKeys.mpr (Or.inl (mem_of_lookupT_eq_some h1))
  obtain ⟨l1, l2, hsplit⟩ := List.append_of_mem hk
  have haux := removed_all_aux (treeSz o) o (d + 1) le_rfl hwf
  refine ⟨l1.flatMap (diff_chunk old_tree new_tree d),
    l2.flatMap (diff_chunk old_tree new_tree d), ?_, haux.1, ?_⟩
  · rw [diff_trees_unfold, hsplit, List.flatMap_append, List.flatMap_cons]
    have hchunk : diff_chunk old_tree new_tree d k =
        (spaces d ++ "- " ++ k) :: diff_trees o emptyTree (d + 1) := by
      unfold diff_chunk
      rw [h1, h2]
    rw [hchunk, List.append_assoc]
  · intro line hline
    rcases List.mem_cons.mp hline with hl | hl
    · exact ⟨d, k, hl⟩
    · exact haux.2 line hl

/-- C1 witness. -/
theorem removed_subtree_propagation_witness :
    ∃ pre post, diff_trees (Tree.node [("a", Tree.node [("b", Tree.node [])])])
        (Tree.node []) 0 =
        pre ++ ((spaces 0 ++ "- " ++ "a") ::
          diff_trees (Tree.node [("b", Tree.node [])]) emptyTree (0 + 1)) ++ post ∧
      (diff_trees (Tree.node [("b", Tree.node [])]) emptyTree (0 + 1)).length =
        countNodes (Tree.node [("b", Tree.node [])]) ∧
      ∀ line ∈ (spaces 0 ++ "- " ++ "a") ::
          diff_trees (Tree.node [("b", Tree.node [])]) emptyTree (0 + 1),
        ∃ dep key, line = spaces dep ++ "- " ++ key :=
  removed_subtree_propagation (Tree.node [("a", Tree.node [("b", Tree.node [])])])
    (Tree.node []) 0 "a" (Tree.node [("b", Tree.node [])]) rfl rfl (by rfl)

/-- C2, elision of unchanged subtrees: if key `k` is present in both trees
and the two subtrees are recursively structurally identical, then the key
contributes nothing to the diff (its per-key chunk is empty); the diff is
the concatenation of the per-key chunks over the key-set union; and for any
key present in both trees the chunk is empty exactly when the recursive
diff is empty, and otherwise is the no-prefix header line immediately
followed by the recursive entries. -/
theorem unchanged_subtree_elision (old_tree new_tree : Tree) (d : Nat) (k : String)
    (o n : Tree) (h1 : lookupT k old_tree = some o) (h2 : lookupT k new_tree = some n)
    (heq : TreeEquiv o n) :
    diff_chunk old_tree new_tree d k = [] ∧
    diff_trees old_tree new_tree d =
      (unionKeys old_tree new_tree).flatMap (diff_chunk old_tree new_tree d) ∧
    (∀ k2 o2 n2, lookupT k2 old_tree = some o2 → lookupT k2 new_tree = some n2 →
      diff_chunk old_tree new_tree d k2 =
        if diff_trees o2 n2 (d + 1) = [] then []
        else (spaces d ++ k2) :: diff_trees o2 n2 (d + 1)) := by
  refine ⟨?_, diff_trees_unfold old_tree new_tree d, ?_⟩
  · unfold diff_chunk
    rw [h1, h2]
    dsimp only
    rw [if_pos (diff_trees_equiv_aux (treeSz o + treeSz n) o n (d + 1) le_rfl heq)]
  · intro k2 o2 n2 ho2 hn2
    unfold diff_chunk
    rw [ho2, hn2]

/-- C2 witness. -/
theorem unchanged_subtree_elision_witness :
    diff_chunk (Tree.node [("a", emptyTree)]) (Tree.node [("a", emptyTree)]) 0 "a" = [] ∧
    diff_trees (Tree.node [("a", emptyTree)]) (Tree.node [("a", emptyTree)]) 0 =
      (unionKeys (Tree.node [("a", emptyTree)]) (Tree.node [("a", emptyTree)])).flatMap
        (diff_chunk (Tree.node [("a", emptyTree)]) (Tree.node [("a", emptyTree)]) 0) ∧
    (∀ k2 o2 n2, lookupT k2 (Tree.node [("a", emptyTree)]) = some o2 →
      lookupT k2 (Tree.node [("a", emptyTree)]) = some n2 →
      diff_chunk (Tree.node [("a", emptyTree)]) (Tree.node [("a", emptyTree)]) 0 k2 =
        if diff_trees o2 n2 (0 + 1) = [] then []
        else (spaces 0 ++ k2) :: diff_trees o2 n2 (0 + 1)) :=
  unchanged_subtree_elision (Tree.node [("a", emptyTree)]) (Tree.node [("a", emptyTree)])
    0 "a" emptyTree emptyTree rfl rfl (TreeEquiv_refl emptyTree)

/-- C3, parser nesting guarantee: the line loop of `build_tree` is the item
run `runItems` over the non-skipped lines, and when item `i` is processed
(from the state reached after the first `i` items), the pop loop leaves a
stack that is exactly the nearest-smaller-indentation ancestor chain of
item `i` (top first, each frame keyed by that line's command and carrying
its indentation) on top of the sentinel: the new node's parent is the node
of the nearest preceding non-skipped line with strictly smaller
indentation, and its depth is the length of that backward chain. -/
theorem parser_nesting (config_lines : List (List Char)) (i : Nat)
    (hi : i < (itemsOf config_lines).length) :
    buildRun config_lines = runItems initStack (itemsOf config_lines) ∧
    ∃ s, runItems initStack ((itemsOf config_lines).take i) = some s ∧
      (popWhile (itmInd (itemsOf config_lines) i) s).map frameProj =
        ((chain (itemsOf config_lines) i).reverse.map (itemProj (itemsOf config_lines))) ++
          [((-1 : Int), (none : Option String))] := by
  refine ⟨buildRun_eq_runItems config_lines, ?_⟩
  obtain ⟨s, hrun, hproj⟩ := runItems_shape itemsOf_nonneg i (le_of_lt hi)
  refine ⟨s, hrun, ?_⟩
  rw [popWhile_map_proj, hproj]
  exact chainpop itemsOf_nonneg hi

/-- C3 witness. -/
theorem parser_nesting_witness :
    buildRun ["interface eth0".data, "  ip address 1.2.3.4".data] =
      runItems initStack (itemsOf ["interface eth0".data, "  ip address 1.2.3.4".data]) ∧
    ∃ s, runItems initStack
        ((itemsOf ["interface eth0".data, "  ip address 1.2.3.4".data]).take 1) = some s ∧
      (popWhile (itmInd (itemsOf ["interface eth0".data, "  ip address 1.2.3.4".data]) 1)
          s).map frameProj =
        ((chain (itemsOf ["interface eth0".data, "  ip address 1.2.3.4".data]) 1).reverse.map
          (itemProj (itemsOf ["interface eth0".data, "  ip address 1.2.3.4".data]))) ++
          [((-1 : Int), (none : Option String))] :=
  parser_nesting ["interface eth0".data, "  ip address 1.2.3.4".data] 1 (by decide)

/-- C4, duplicate-sibling collapse: `build_tree` always returns the tree the
reference builder `refLevel` computes from the non-skipped items; and at any
level of that builder (threshold `t`), two sibling occurrences of the same
command `c` at the same indentation `i` (each followed by its own subtree
items) produce a single entry for `c` at that level, whose value is the
node built from the second occurrence's subtree — the second occurrence
overwrites the first and the first occurrence's children are discarded. -/
theorem duplicate_sibling_collapse (t i : Int) (c : String)
    (xs sub1 sub2 : List (Int × String)) (ht : t < i) (hxs : ∀ x ∈ xs, i ≤ x.1)
    (hs1 : ∀ x ∈ sub1, i < x.1) (hs2 : ∀ x ∈ sub2, i < x.1) :
    (∀ config_lines, build_tree config_lines =
      some (Tree.node (refLevel (-1) (itemsOf config_lines)))) ∧
    ((refLevel t (xs ++ (i, c) :: (sub1 ++ (i, c) :: sub2))).map Prod.fst).count c = 1 ∧
    lookupT c (Tree.node (refLevel t (xs ++ (i, c) :: (sub1 ++ (i, c) :: sub2)))) =
      some (Tree.node (refLevel i sub2)) := by
  have hops := refOps_dup t i c xs sub1 sub2 ht hxs hs1 hs2
  have hlevel : refLevel t (xs ++ (i, c) :: (sub1 ++ (i, c) :: sub2)) =
      insertOrReplace c (Tree.node (refLevel i sub2))
        (insertOrReplace c (Tree.node (refLevel i sub1)) (refLevel t xs)) := by
    unfold refLevel
    rw [hops, foldIOR_append]
    rfl
  refine ⟨build_tree_eq_ref, ?_, ?_⟩
  · rw [hlevel]
    have hnd : ((insertOrReplace c (Tree.node (refLevel i sub2))
        (insertOrReplace c (Tree.node (refLevel i sub1)) (refLevel t xs))).map
          Prod.fst).Nodup :=
      insertOrReplace_nodup (insertOrReplace_nodup (foldIOR_nodup (by simp) _))
    have hmem := insertOrReplace_mem_keys c (Tree.node (refLevel i sub2))
      (insertOrReplace c (Tree.node (refLevel i sub1)) (refLevel t xs))
    have hle := List.nodup_iff_count_le_one.mp hnd c
    have hpos := List.count_pos_iff.mpr hmem
    omega
  · rw [hlevel]
    exact lookupT_insertOrReplace_self c _ _

/-- C4 witness. -/
theorem duplicate_sibling_collapse_witness :
    (∀ config_lines, build_tree config_lines =
      some (Tree.node (refLevel (-1) (itemsOf config_lines)))) ∧
    ((refLevel (-1) ([] ++ ((0 : Int), "a") :: ([((2 : Int), "x")] ++
      ((0 : Int), "a") :: [((2 : Int), "y")]))).map Prod.fst).count "a" = 1 ∧
    lookupT "a" (Tree.node (refLevel (-1) ([] ++ ((0 : Int), "a") :: ([((2 : Int), "x")] ++
      ((0 : Int), "a") :: [((2 : Int), "y")])))) =
      some (Tree.node (refLevel 0 [((2 : Int), "y")])) :=
  duplicate_sibling_collapse (-1) 0 "a" [] [((2 : Int), "x")] [((2 : Int), "y")]
    (by decide) (by decide) (by decide) (by decide)

/-- C5, idempotence of the no-op diff: diffing any tree against itself, at
any depth, yields the empty report. -/
theorem noop_diff_idempotence (T : Tree) (d : Nat) : diff_trees T T d = [] :=
  diff_trees_self_aux (treeSz T) T d le_rfl

/-- C6, symmetry of classification: the structured diff of `B` against `A`
is, entry by entry (same position, same depth, same key), the diff of `A`
against `B` with removed and added exchanged and headers unchanged; and
`diff_trees` renders exactly these structured entries, so every key marked
removed at some depth and position in `diff_trees A B` is marked added at
the same depth and position in `diff_trees B A`, and vice versa. -/
theorem diff_symmetry (A B : Tree) (d : Nat) :
    diffEntries B A d = (diffEntries A B d).map swapEntry ∧
    diff_trees A B d = (diffEntries A B d).map renderEntry ∧
    diff_trees B A d = (diffEntries B A d).map renderEntry :=
  ⟨entries_swap_aux (treeSz A + treeSz B) A B d le_rfl,
    diff_render_aux (treeSz A + treeSz B) A B d le_rfl,
    diff_render_aux (treeSz B + treeSz A) B A d le_rfl⟩

/-- C7, skip-line invariance: the tree depends only on the non-skipped
items, so inserting any number of lines that are blank after trimming or
whose trimmed content is exactly "!" (at any position and indentation)
leaves `build_tree` unchanged; in particular one such inserted line
contributes no item and yields the same tree. -/
theorem skip_line_invariance (pre post : List (List Char)) (s : List Char)
    (h : skipLine s = true) :
    (∀ l1 l2 : List (List Char), itemsOf l1 = itemsOf l2 →
      build_tree l1 = build_tree l2) ∧
    itemsOf (pre ++ s :: post) = itemsOf (pre ++ post) ∧
    build_tree (pre ++ s :: post) = build_tree (pre ++ post) := by
  have hnone : itemOf s = none := by
    simp [itemOf, h]
  refine ⟨?_, ?_, ?_⟩
  · intro l1 l2 h12
    rw [build_tree_eq_ref, build_tree_eq_ref, h12]
  · rw [itemsOf, itemsOf, List.filterMap_append, List.filterMap_append,
      List.filterMap_cons, hnone]
  · unfold build_tree buildRun
    rw [foldlM_buildStep_skip h]

/-- C7 witness: an indented "!" line inserted in the middle. -/
theorem skip_line_invariance_witness :
    (∀ l1 l2 : List (List Char), itemsOf l1 = itemsOf l2 →
      build_tree l1 = build_tree l2) ∧
    itemsOf (["interface eth0".data] ++ "  !".data :: ["  ip address 1.2.3.4".data]) =
      itemsOf (["interface eth0".data] ++ ["  ip address 1.2.3.4".data]) ∧
    build_tree (["interface eth0".data] ++ "  !".data :: ["  ip address 1.2.3.4".data]) =
      build_tree (["interface eth0".data] ++ ["  ip address 1.2.3.4".data]) :=
  skip_line_invariance ["interface eth0".data] ["  ip address 1.2.3.4".data]
    "  !".data (by decide)

/-- C8, totality of the core: `build_tree` succeeds on every input — the
pop loop never removes the sentinel (every real line has indentation at
least 0 > -1), so the stack top is always readable and the error case of
the model is never taken; `diff_trees` is a total function by
construction. -/
theorem build_tree_total (config_lines : List (List Char)) :
    ∃ t, build_tree config_lines = some t :=
  ⟨Tree.node (refLevel (-1) (itemsOf config_lines)), build_tree_eq_ref config_lines⟩

/-- C9, concrete scenario: building the two example configurations and
diffing them yields exactly the header line for "interface eth0", then the
removed old address, then the added new address, in that order. -/
theorem concrete_scenario_diff :
    (build_tree ["interface eth0".data, "  ip address 1.2.3.4".data, "!".data]).bind
      (fun old_tree =>
        (build_tree ["interface eth0".data, "  ip address 5.6.7.8".data]).map
          (fun new_tree => diff_trees old_tree new_tree 0)) =
      some ["interface eth0", "  - ip address 1.2.3.4", "  + ip address 5.6.7.8"] := by
  decide

/-- C10, empty report implies equal trees: if the diff of `A` against `B`
at any depth is empty, then `A` and `B` are structurally identical as
nested mappings (same key sets at every level, recursively). -/
theorem empty_diff_implies_equiv (A B : Tree) (d : Nat) (h : diff_trees A B d = []) :
    TreeEquiv A B :=
  diff_trees_nil_equiv_aux (treeSz A + treeSz B) A B d le_rfl h

/-- C10 witness. -/
theorem empty_diff_implies_equiv_witness :
    TreeEquiv (Tree.node [("a", emptyTree)]) (Tree.node [("a", emptyTree)]) :=
  empty_diff_implies_equiv (Tree.node [("a", emptyTree)]) (Tree.node [("a", emptyTree)])
    0 (by decide)

end DiffCli
